import Mathlib

/-!
Verification of the drum-score text parser (`src/score.py`, Drum Score Player
v0.8.0).  The Python source is shallowly embedded below: Python `str`
operations are modelled over `List Char` (a Lean `String` is a structure
holding its character list), Python `int` is modelled as `Int`, Python
floor division and modulo are `Int.ediv` / `Int.emod` (they agree with
Python for the positive divisors used by the source), and every `raise`
site is mapped to a distinct constructor of a structured error type, each
carrying the data interpolated into the corresponding Python message.
Lines are split on a newline character (the exotic extra separators of
Python `str.splitlines` are not modelled; no claim depends on them), and
the underscore digit grouping of Python `int()` literals is likewise not
modelled.
-/

namespace DrumScore

/-! ### Python string primitives -/

def isWS (c : Char) : Bool := c = ' ' || c = '\t' || c = '\n' || c = '\r'

def dropEndWhile (p : Char → Bool) (cs : List Char) : List Char :=
  (cs.reverse.dropWhile p).reverse

/-- Python `str.strip()` (default whitespace set restricted to ASCII). -/
def strip (s : String) : String :=
  String.mk (dropEndWhile isWS (s.toList.dropWhile isWS))

/-- Python `str.rstrip("+")`. -/
def rstripPlus (s : String) : String :=
  String.mk (dropEndWhile (fun c => c = '+') s.toList)

/-- The part of `s` before the first occurrence of `c` (all of `s` if absent):
Python `s.split(c, 1)[0]`. -/
def beforeCh (c : Char) (s : String) : String :=
  String.mk (s.toList.takeWhile (fun x => x ≠ c))

/-- The part of `s` after the first occurrence of `c` (empty if absent):
Python `s.split(c, 1)[1]` at call sites that guard on membership. -/
def afterFirst (c : Char) (s : String) : String :=
  String.mk ((s.toList.dropWhile (fun x => x ≠ c)).drop 1)

def containsCh (c : Char) (s : String) : Bool :=
  s.toList.any (fun x => x = c)

def isPre : List Char → List Char → Bool
  | [], _ => true
  | _ :: _, [] => false
  | a :: as, b :: bs => a = b && isPre as bs

/-- Python `str.startswith`. -/
def startsW (p s : String) : Bool := isPre p.toList s.toList

def splitChAux (c : Char) : List Char → List Char → List String
  | [], acc => [String.mk acc.reverse]
  | x :: xs, acc =>
    if x = c then String.mk acc.reverse :: splitChAux c xs []
    else splitChAux c xs (x :: acc)

/-- Python `s.split(c)` with a one-character separator (every occurrence). -/
def splitAll (c : Char) (s : String) : List String := splitChAux c s.toList []

def wsSplitAux : List Char → List Char → List String
  | [], acc => if acc.isEmpty then [] else [String.mk acc.reverse]
  | x :: xs, acc =>
    if isWS x then
      (if acc.isEmpty then wsSplitAux xs []
       else String.mk acc.reverse :: wsSplitAux xs [])
    else wsSplitAux xs (x :: acc)

/-- Python `str.split()` with no argument: split on whitespace runs,
dropping empty pieces. -/
def wsSplit (s : String) : List String := wsSplitAux s.toList []

/-- Python `str.isdigit` (ASCII digits). -/
def isDigitStr (s : String) : Bool :=
  !s.toList.isEmpty && s.toList.all Char.isDigit

def digitsVal (cs : List Char) : Int :=
  cs.foldl (fun n c => 10 * n + ((c.toNat : Int) - 48)) 0

/-- Python `int(s)`: optional surrounding whitespace, optional sign, digits. -/
def pyInt (s : String) : Option Int :=
  match (strip s).toList with
  | '-' :: ds =>
    if !ds.isEmpty && ds.all Char.isDigit then some (-(digitsVal ds)) else none
  | '+' :: ds =>
    if !ds.isEmpty && ds.all Char.isDigit then some (digitsVal ds) else none
  | ds =>
    if !ds.isEmpty && ds.all Char.isDigit then some (digitsVal ds) else none

/-- First-match association lookup, the `dict` read `d[k]` / `k in d`. -/
def lookupA {α : Type} : List (String × α) → String → Option α
  | [], _ => none
  | (k2, v) :: rest, k => if k2 = k then some v else lookupA rest k

/-- The `dict` write `d[k] = v`: updates in place keeping the insertion
position of an existing key, appends a fresh key at the end. -/
def updateA {α : Type} : List (String × α) → String → α → List (String × α)
  | [], k, v => [(k, v)]
  | (k2, v2) :: rest, k, v =>
    if k2 = k then (k, v) :: rest else (k2, v2) :: updateA rest k v

/-! ### Data model (`NoteEvent`, `Track`, `Score` of `src/score.py`) -/

structure NoteEvent where
  start_step : Int
  length_steps : Int
  symbol : String
  dynamic : String
deriving DecidableEq, Repr

structure Track where
  name : String
  events : List NoteEvent
deriving DecidableEq, Repr

structure Score where
  tempo : Int
  time_signature : Int × Int
  pulses_per_beat : Int
  tracks : List Track
  title : Option String
deriving DecidableEq, Repr

def Score.beats_per_bar (s : Score) : Int := s.time_signature.1

def Score.bar_steps (s : Score) : Int := s.beats_per_bar * s.pulses_per_beat

/-- The `max_len` fold inside the Python `bars` property: the maximum of
`last.start_step + last.length_steps` over non-empty tracks, starting at 0. -/
def Score.maxLen (s : Score) : Int :=
  s.tracks.foldl
    (fun m t =>
      match t.events.getLast? with
      | none => m
      | some e => max m (e.start_step + e.length_steps)) 0

def Score.bars (s : Score) : Int :=
  if s.bar_steps ≤ 0 then 1
  else if s.maxLen ≤ 0 then 1
  else max 1 ((s.maxLen + s.bar_steps - 1).ediv s.bar_steps)

def Score.total_steps (s : Score) : Int := s.bars * s.bar_steps

/-! ### Structured parse errors

Each constructor corresponds to one `raise ValueError(...)` site of
`Score.from_text`, carrying the values interpolated into its message. -/

inductive CheckErr where
  /-- CHECK block lacks the `_Total` entry of a parsed track. -/
  | missing (key : String)
  /-- CHECK value differs from the computed per-track total. -/
  | mismatch (key : String) (expected actual : Int)
  /-- CHECK key matching no track `_Total` key: disallowed. -/
  | extra (key : String)
deriving DecidableEq, Repr

inductive ParseErr where
  | unknownDynamic (dyn token : String)
  | dotDynamic
  | nonPositiveNoteValue (nv : Int)
  | inexactDivision (tsNum tsDen ppb nv : Int)
  | emptyToken
  | plusOnlyToken (token : String)
  | barToken
  | plusCountMismatch (token : String) (plusCount : Nat) (nv len : Int)
  | unknownToken (token : String)
  | checkLineFormat
  | checkValueNotInt (line : String)
  | badIntLiteral (s : String)
  | badTimeFormat (s : String)
  | timeBeforeTracks
  | emptyTrackName
  | nonPositiveBarSteps
  | lineLengthMismatch (track : String) (lineLength barSteps : Int)
  | tokenLengthNonPositive (token : String)
  | unrecognizedLine (line : String)
  | missingTimeOrPPB
  | missingCheckBlock
  | noTracks
  | trackTotalNotMultiple (track : String) (total barSteps : Int)
  | checkEmpty
  | checkErrors (errs : List CheckErr)
deriving DecidableEq, Repr

/-! ### Token grammar (`split_dynamic`, `note_value_to_steps`, `parse_token`) -/

def dynList : List String := ["pp", "p", "mp", "mf", "f", "ff"]

def split_dynamic (token_raw : String) : Except ParseErr (String × String) :=
  if containsCh '^' token_raw then
    let base := strip (beforeCh '^' token_raw)
    let dyn := strip (afterFirst '^' token_raw)
    if ¬ dynList.contains dyn then .error (.unknownDynamic dyn token_raw)
    else if base = "." then .error .dotDynamic
    else .ok (base, dyn)
  else .ok (strip token_raw, "mf")

def nvCodes : List (String × Int) :=
  [("64", 64), ("32", 32), ("16", 16), ("8", 8), ("4", 4), ("2", 2), ("1", 1)]

def preChars : List Char := ['x', 'X', 'o', 'O', '-', 'r', 'R', '_']

/-- The anchored regex of the source,
`(?P<prefix>[xXoO\-rR_]?)?(?P<note_value>64|32|16|8|4|2|1)`, as a function
returning the matched prefix and the numeric note value. -/
def durationMatch (base : String) : Option (String × Int) :=
  match lookupA nvCodes base with
  | some nv => some ("", nv)
  | none =>
    match base.toList with
    | c :: rest =>
      if preChars.contains c then
        match lookupA nvCodes (String.mk rest) with
        | some nv => some (String.mk [c], nv)
        | none => none
      else none
    | [] => none

def note_value_to_steps (ts : Int × Int) (ppb : Int) (note_value : Int) :
    Except ParseErr Int :=
  let numerator := ppb * ts.2
  if note_value ≤ 0 then .error (.nonPositiveNoteValue note_value)
  else if numerator.emod note_value ≠ 0 then
    .error (.inexactDivision ts.1 ts.2 ppb note_value)
  else .ok (numerator.ediv note_value)

def restSingles : List String := ["-", "r", "R", "_", "."]

def allowedSingles : List String := ["x", "X", "o", "O", "-", "r", "R", "_", "."]

def symbolFor (pre : String) : String :=
  if pre = "-" ∨ pre = "r" ∨ pre = "R" ∨ pre = "_" then "rest"
  else if pre = "x" ∨ pre = "X" ∨ pre = "o" ∨ pre = "O" then pre
  else "x"

def parse_token (ts : Int × Int) (ppb : Int) (token_raw : String) :
    Except ParseErr (String × String × Int) :=
  let token := strip token_raw
  if token = "" then .error .emptyToken
  else
    let core := rstripPlus token
    let plus_count : Nat := token.length - core.length
    match split_dynamic core with
    | .error e => .error e
    | .ok (base, dyn) =>
      if base = "" then .error (.plusOnlyToken token_raw)
      else if base = "|" then .error .barToken
      else if base = "." ∧ dyn ≠ "mf" then .error .dotDynamic
      else
        match durationMatch base with
        | some (pre, note_value) =>
          match note_value_to_steps ts ppb note_value with
          | .error e => .error e
          | .ok length_steps =>
            if plus_count ≠ 0 ∧ (plus_count : Int) ≠ length_steps - 1 then
              .error (.plusCountMismatch token_raw plus_count note_value length_steps)
            else .ok (symbolFor pre, dyn, length_steps)
        | none =>
          if allowedSingles.contains base then
            .ok ((if restSingles.contains base then "rest" else base), dyn,
                 (1 : Int) + plus_count)
          else .error (.unknownToken token_raw)

/-! ### Document parser (`Score.from_text`) -/

/-- The mutable locals of one `from_text` call. -/
structure PState where
  tempo : Option Int
  time_sig : Option (Int × Int)
  pulses_per_beat : Option Int
  title : Option String
  trackEventsMap : List (String × List NoteEvent)
  trackTotalSteps : List (String × Int)
  inCheckBlock : Bool
  checkValues : List (String × Int)
  checkBlockFound : Bool
deriving DecidableEq, Repr

def initState : PState :=
  { tempo := none, time_sig := none, pulses_per_beat := none, title := none,
    trackEventsMap := [], trackTotalSteps := [], inCheckBlock := false,
    checkValues := [], checkBlockFound := false }

/-- The token loop of a track line: collects
`(relative_start, symbol, dynamic, length_steps)` and the running total. -/
def buildLineEvents (ts : Int × Int) (ppb : Int) (acc : Int) :
    List String → Except ParseErr (List (Int × String × String × Int) × Int)
  | [] => .ok ([], acc)
  | tok :: rest =>
    match parse_token ts ppb tok with
    | .error e => .error e
    | .ok (symbol, dyn, length_steps) =>
      if length_steps ≤ 0 then .error (.tokenLengthNonPositive tok)
      else
        match buildLineEvents ts ppb (acc + length_steps) rest with
        | .error e => .error e
        | .ok (evs, total) => .ok ((acc, symbol, dyn, length_steps) :: evs, total)

/-- Appends one line event to a track accumulator: extends the stored last
rest in place when the new event is an adjacent rest, appends otherwise. -/
def pushEvent (start_offset : Int) (events : List NoteEvent)
    (ev : Int × String × String × Int) : List NoteEvent :=
  let start_step := start_offset + ev.1
  match events.getLast? with
  | some last =>
    if ev.2.1 = "rest" ∧ last.symbol = "rest" ∧
        last.start_step + last.length_steps = start_step then
      events.dropLast ++
        [{ last with length_steps := last.length_steps + ev.2.2.2 }]
    else
      events ++ [{ start_step := start_step, length_steps := ev.2.2.2,
                   symbol := ev.2.1, dynamic := ev.2.2.1 }]
  | none =>
    events ++ [{ start_step := start_step, length_steps := ev.2.2.2,
                 symbol := ev.2.1, dynamic := ev.2.2.1 }]

def processTrackLine (st : PState) (line : String) : Except ParseErr PState :=
  match st.time_sig, st.pulses_per_beat with
  | some ts, some ppb =>
    let track_name := strip (beforeCh ':' line)
    if track_name = "" then .error .emptyTrackName
    else
      let tokens := wsSplit (strip (afterFirst ':' line))
      let bar_steps := ts.1 * ppb
      if bar_steps ≤ 0 then .error .nonPositiveBarSteps
      else
        let st1 :=
          if (lookupA st.trackEventsMap track_name).isSome then st
          else { st with
                 trackEventsMap := st.trackEventsMap ++ [(track_name, [])],
                 trackTotalSteps := st.trackTotalSteps ++ [(track_name, 0)] }
        match buildLineEvents ts ppb 0 tokens with
        | .error e => .error e
        | .ok (line_events, line_length) =>
          if line_length ≠ bar_steps then
            .error (.lineLengthMismatch track_name line_length bar_steps)
          else
            let start_offset := (lookupA st1.trackTotalSteps track_name).getD 0
            let events := (lookupA st1.trackEventsMap track_name).getD []
            let events2 := line_events.foldl (pushEvent start_offset) events
            .ok { st1 with
                  trackEventsMap := updateA st1.trackEventsMap track_name events2,
                  trackTotalSteps :=
                    updateA st1.trackTotalSteps track_name
                      (start_offset + line_length) }
  | _, _ => .error .timeBeforeTracks

/-- `TIME=n/d` value parsing: `a, b = ts.split("/")` then `int` on both. -/
def parseTimeVal (ts : String) : Except ParseErr (Int × Int) :=
  match splitAll '/' ts with
  | [a, b] =>
    match pyInt a, pyInt b with
    | some x, some y => .ok (x, y)
    | _, _ => .error (.badIntLiteral ts)
  | _ => .error (.badTimeFormat ts)

/-- Dispatch on one already-cooked line (comment stripped, trimmed). -/
def dispatchLine (st : PState) (line : String) : Except ParseErr PState :=
  if line = "" then .ok st
  else if startsW "%%CHECK:" line then
    .ok { st with checkBlockFound := true, inCheckBlock := true }
  else if startsW "%%ENDCHECK" line then .ok { st with inCheckBlock := false }
  else if st.inCheckBlock then
    if ¬ containsCh '=' line then .error .checkLineFormat
    else
      let key := strip (beforeCh '=' line)
      let value_str := strip (afterFirst '=' line)
      if ¬ isDigitStr value_str then .error (.checkValueNotInt line)
      else
        .ok { st with
              checkValues := updateA st.checkValues key (digitsVal value_str.toList) }
  else if startsW "FILENAME=" line then .ok st
  else if startsW "TITLE=" line then
    .ok { st with title := some (strip (afterFirst '=' line)) }
  else if startsW "TEMPO=" line then
    match pyInt (afterFirst '=' line) with
    | some n => .ok { st with tempo := some n }
    | none => .error (.badIntLiteral (afterFirst '=' line))
  else if startsW "TIME=" line then
    match parseTimeVal (afterFirst '=' line) with
    | .ok v => .ok { st with time_sig := some v }
    | .error e => .error e
  else if startsW "PULSES_PER_BEAT=" line then
    match pyInt (afterFirst '=' line) with
    | some n => .ok { st with pulses_per_beat := some n }
    | none => .error (.badIntLiteral (afterFirst '=' line))
  else if containsCh ':' line then processTrackLine st line
  else .error (.unrecognizedLine line)

/-- One iteration of the line loop: strip the `#` comment, trim, dispatch. -/
def processLine (st : PState) (raw : String) : Except ParseErr PState :=
  dispatchLine st (strip (beforeCh '#' raw))

def linesOf (text : String) : List String := splitAll '\n' text

def foldLines : List String → PState → Except ParseErr PState
  | [], st => .ok st
  | l :: ls, st =>
    match processLine st l with
    | .error e => .error e
    | .ok st2 => foldLines ls st2

/-- The final per-track loop: bar-multiple check and `Track` construction,
in map insertion order, failing at the first violating track. -/
def buildTracks (totals : List (String × Int)) (bar_steps : Int) :
    List (String × List NoteEvent) → Except ParseErr (List Track)
  | [] => .ok []
  | (name, events) :: rest =>
    let total := (lookupA totals name).getD 0
    if total.emod bar_steps ≠ 0 then
      .error (.trackTotalNotMultiple name total bar_steps)
    else
      match buildTracks totals bar_steps rest with
      | .error e => .error e
      | .ok tks => .ok (Track.mk name events :: tks)

/-- The first CHECK loop body: at most one error per track, a missing key
or a value mismatch. -/
def perTrackCheck (checkValues : List (String × Int)) (p : String × Int) :
    List CheckErr :=
  let key := p.1 ++ "_Total"
  match lookupA checkValues key with
  | none => [.missing key]
  | some expected => if expected ≠ p.2 then [.mismatch key expected p.2] else []

/-- The aggregated CHECK error list: per-track missing/mismatch entries in
track insertion order, then the disallowed extra keys in CHECK order. -/
def checkErrList (totals checkValues : List (String × Int)) : List CheckErr :=
  let trackTotalKeys := totals.map (fun p => p.1 ++ "_Total")
  (totals.map (perTrackCheck checkValues)).flatten
    ++ (checkValues.filter (fun p => ! trackTotalKeys.contains p.1)).map
         (fun p => CheckErr.extra p.1)

/-- Everything after the line loop of `from_text`: required headers, tempo
default, CHECK block presence, track presence, bar-multiple validation,
`Score` construction and the CHECK cross-validation. -/
def finalize (st : PState) : Except ParseErr Score :=
  match st.time_sig, st.pulses_per_beat with
  | some ts, some ppb =>
    let tempo := st.tempo.getD 120
    if ¬ st.checkBlockFound then .error .missingCheckBlock
    else if st.trackEventsMap.isEmpty then .error .noTracks
    else
      let bar_steps := ts.1 * ppb
      if bar_steps ≤ 0 then .error .nonPositiveBarSteps
      else
        match buildTracks st.trackTotalSteps bar_steps st.trackEventsMap with
        | .error e => .error e
        | .ok tracks =>
          let score : Score :=
            { tempo := tempo, time_signature := ts, pulses_per_beat := ppb,
              tracks := tracks, title := st.title }
          if st.checkValues.isEmpty then .error .checkEmpty
          else
            let errs := checkErrList st.trackTotalSteps st.checkValues
            if errs.isEmpty then .ok score else .error (.checkErrors errs)
  | _, _ => .error .missingTimeOrPPB

def fromText (text : String) : Except ParseErr Score :=
  match foldLines (linesOf text) initState with
  | .error e => .error e
  | .ok st => finalize st

instance {ε α : Type} [DecidableEq ε] [DecidableEq α] :
    DecidableEq (Except ε α) := fun x y =>
  match x, y with
  | .ok a, .ok b =>
    if h : a = b then .isTrue (by rw [h])
    else .isFalse (fun hh => by cases hh; exact h rfl)
  | .error a, .error b =>
    if h : a = b then .isTrue (by rw [h])
    else .isFalse (fun hh => by cases hh; exact h rfl)
  | .ok _, .error _ => .isFalse (fun hh => by cases hh)
  | .error _, .ok _ => .isFalse (fun hh => by cases hh)

/-! ### Timeline invariants -/

/-- `chain s events e`: the events abut one another, starting exactly at
step `s`, ending exactly at step `e`, every length positive. -/
def chain : Int → List NoteEvent → Int → Prop
  | s, [], e => s = e
  | s, ev :: evs, e =>
    ev.start_step = s ∧ 0 < ev.length_steps ∧ chain (s + ev.length_steps) evs e

/-- No two consecutive events are both rests. -/
def noTwoRests (events : List NoteEvent) : Prop :=
  List.Chain' (fun a b => ¬ (a.symbol = "rest" ∧ b.symbol = "rest")) events

/-- Contiguity of the relative line events produced by `buildLineEvents`. -/
def lineChain : Int → List (Int × String × String × Int) → Int → Prop
  | s, [], e => s = e
  | s, q :: qs, e => q.1 = s ∧ 0 < q.2.2.2 ∧ lineChain (s + q.2.2.2) qs e

/-- Invariant of the per-track accumulators of the parsing loop. -/
def stInv (st : PState) : Prop :=
  st.trackEventsMap.map Prod.fst = st.trackTotalSteps.map Prod.fst ∧
  (st.trackEventsMap.map Prod.fst).Nodup ∧
  ∀ name events, lookupA st.trackEventsMap name = some events →
    ∃ total, lookupA st.trackTotalSteps name = some total ∧
      chain 0 events total ∧ noTwoRests events

theorem chain_append {xs ys : List NoteEvent} {s e : Int} :
    chain s (xs ++ ys) e ↔ ∃ m, chain s xs m ∧ chain m ys e := by
  induction xs generalizing s with
  | nil =>
    constructor
    · intro h; exact ⟨s, rfl, h⟩
    · rintro ⟨m, hm, h⟩
      have hsm : s = m := hm
      rw [hsm]; exact h
  | cons ev evs ih =>
    constructor
    · intro h
      obtain ⟨h1, h2, h3⟩ := h
      obtain ⟨m, hm1, hm2⟩ := ih.1 h3
      exact ⟨m, ⟨h1, h2, hm1⟩, hm2⟩
    · rintro ⟨m, ⟨h1, h2, h3⟩, h4⟩
      exact ⟨h1, h2, ih.2 ⟨m, h3, h4⟩⟩

theorem chain_le {xs : List NoteEvent} {s e : Int} (h : chain s xs e) : s ≤ e := by
  induction xs generalizing s with
  | nil => exact le_of_eq h
  | cons ev evs ih =>
    obtain ⟨-, h2, h3⟩ := h
    have := ih h3
    omega

theorem chain_pos {xs : List NoteEvent} {s e : Int} (h : chain s xs e) :
    ∀ ev ∈ xs, 0 < ev.length_steps := by
  induction xs generalizing s with
  | nil => intro ev hev; cases hev
  | cons a as ih =>
    obtain ⟨-, h2, h3⟩ := h
    intro ev hev
    rcases List.mem_cons.mp hev with rfl | hev
    · exact h2
    · exact ih h3 ev hev

theorem chain_bounds {xs : List NoteEvent} {s e : Int} (h : chain s xs e) :
    ∀ ev ∈ xs, s ≤ ev.start_step ∧ ev.start_step + ev.length_steps ≤ e := by
  induction xs generalizing s with
  | nil => intro ev hev; cases hev
  | cons a as ih =>
    obtain ⟨h1, h2, h3⟩ := h
    intro ev hev
    rcases List.mem_cons.mp hev with rfl | hev
    · exact ⟨le_of_eq h1.symm, by have := chain_le h3; omega⟩
    · have := ih h3 ev hev; omega

theorem chain_pairwise {xs : List NoteEvent} {s e : Int} (h : chain s xs e) :
    xs.Pairwise (fun a b => a.start_step + a.length_steps ≤ b.start_step) := by
  induction xs generalizing s with
  | nil => exact List.Pairwise.nil
  | cons a as ih =>
    obtain ⟨h1, h2, h3⟩ := h
    refine List.Pairwise.cons ?_ (ih h3)
    intro b hb
    have := (chain_bounds h3 b hb).1
    omega

theorem chain_cover {xs : List NoteEvent} {s e : Int} (h : chain s xs e) :
    ∀ k : Int,
      (∃ ev ∈ xs, ev.start_step ≤ k ∧ k < ev.start_step + ev.length_steps) ↔
      (s ≤ k ∧ k < e) := by
  induction xs generalizing s with
  | nil =>
    intro k
    have hse : s = e := h
    subst hse
    constructor
    · rintro ⟨ev, hev, -⟩; cases hev
    · rintro ⟨hk1, hk2⟩; omega
  | cons a as ih =>
    obtain ⟨h1, h2, h3⟩ := h
    intro k
    have hle := chain_le h3
    constructor
    · rintro ⟨ev, hev, hk1, hk2⟩
      rcases List.mem_cons.mp hev with rfl | hev
      · subst h1; omega
      · have := ((ih h3) k).1 ⟨ev, hev, hk1, hk2⟩
        omega
    · rintro ⟨hk1, hk2⟩
      by_cases hc : k < a.start_step + a.length_steps
      · exact ⟨a, List.mem_cons_self a as, by omega, hc⟩
      · obtain ⟨ev, hev, hcov⟩ := ((ih h3) k).2 (by omega)
        exact ⟨ev, List.mem_cons_of_mem a hev, hcov⟩

theorem chain_sum {xs : List NoteEvent} {s e : Int} (h : chain s xs e) :
    e = s + (xs.map (fun ev => ev.length_steps)).sum := by
  induction xs generalizing s with
  | nil => simpa using h.symm
  | cons a as ih =>
    obtain ⟨-, -, h3⟩ := h
    have := ih h3
    simp only [List.map_cons, List.sum_cons]
    omega

theorem lineChain_le {qs : List (Int × String × String × Int)} {s e : Int}
    (h : lineChain s qs e) : s ≤ e := by
  induction qs generalizing s with
  | nil => exact le_of_eq h
  | cons q qs ih =>
    obtain ⟨-, h2, h3⟩ := h
    have := ih h3
    omega

theorem buildLineEvents_chain {ts : Int × Int} {ppb : Int}
    {toks : List String} {acc e : Int}
    {evs : List (Int × String × String × Int)}
    (h : buildLineEvents ts ppb acc toks = .ok (evs, e)) : lineChain acc evs e := by
  induction toks generalizing acc evs with
  | nil =>
    simp only [buildLineEvents] at h
    cases h
    exact rfl
  | cons tok rest ih =>
    rcases hp : parse_token ts ppb tok with e1 | ⟨sym, dyn, L⟩ <;>
      simp only [buildLineEvents, hp] at h
    · cases h
    · by_cases hL : L ≤ 0
      · rw [if_pos hL] at h; cases h
      · rw [if_neg hL] at h
        rcases hb : buildLineEvents ts ppb (acc + L) rest with e2 | ⟨evs2, tot⟩ <;>
          simp only [hb] at h
        · cases h
        · cases h
          exact ⟨rfl, by show (0:Int) < L; omega, ih hb⟩

/-! ### Association-list lemmas -/

theorem lookupA_append {α : Type} (l m : List (String × α)) (k : String) :
    lookupA (l ++ m) k =
      match lookupA l k with
      | some v => some v
      | none => lookupA m k := by
  induction l with
  | nil => rfl
  | cons p rest ih =>
    by_cases hk : p.1 = k
    · simp only [List.cons_append, lookupA, if_pos hk]
    · simp only [List.cons_append, lookupA, if_neg hk]
      exact ih

theorem lookupA_eq_none_iff {α : Type} (l : List (String × α)) (k : String) :
    lookupA l k = none ↔ k ∉ l.map Prod.fst := by
  induction l with
  | nil => simp [lookupA]
  | cons p rest ih =>
    by_cases hk : p.1 = k
    · simp [lookupA, hk]
    · simp [lookupA, hk, ih, Ne.symm hk]

theorem lookupA_isSome_iff {α : Type} (l : List (String × α)) (k : String) :
    (lookupA l k).isSome = true ↔ k ∈ l.map Prod.fst := by
  rcases h : lookupA l k with - | v
  · simpa using (lookupA_eq_none_iff l k).mp h
  · simp only [Option.isSome_some, true_iff]
    by_contra hk
    rw [(lookupA_eq_none_iff l k).mpr hk] at h
    cases h

theorem lookupA_updateA_self {α : Type} (l : List (String × α)) (k : String)
    (v : α) : lookupA (updateA l k v) k = some v := by
  induction l with
  | nil => simp [updateA, lookupA]
  | cons p rest ih =>
    by_cases hk : p.1 = k
    · simp [updateA, hk, lookupA]
    · simp [updateA, hk, lookupA, ih]

theorem lookupA_updateA_ne {α : Type} (l : List (String × α)) {k k2 : String}
    (v : α) (h : k2 ≠ k) : lookupA (updateA l k v) k2 = lookupA l k2 := by
  induction l with
  | nil => simp [updateA, lookupA, Ne.symm h]
  | cons p rest ih =>
    by_cases hk : p.1 = k
    · subst hk
      simp [updateA, lookupA, Ne.symm h]
    · simp [updateA, hk, lookupA, ih]

theorem map_fst_updateA {α : Type} (l : List (String × α)) (k : String) (v : α)
    (h : k ∈ l.map Prod.fst) : (updateA l k v).map Prod.fst = l.map Prod.fst := by
  induction l with
  | nil => cases h
  | cons p rest ih =>
    by_cases hk : p.1 = k
    · simp [updateA, hk]
    · have hm : k ∈ rest.map Prod.fst := by
        rcases List.mem_cons.mp h with h1 | h1
        · exact absurd h1.symm hk
        · exact h1
      simp [updateA, hk, ih hm]

theorem lookupA_of_mem_nodup {α : Type} {l : List (String × α)} {k : String}
    {v : α} (hd : (l.map Prod.fst).Nodup) (h : (k, v) ∈ l) :
    lookupA l k = some v := by
  induction l with
  | nil => cases h
  | cons p rest ih =>
    rcases List.mem_cons.mp h with h1 | h1
    · subst h1
      simp [lookupA]
    · have hk : p.1 ≠ k := by
        intro he
        have : k ∈ rest.map Prod.fst := List.mem_map.mpr ⟨(k, v), h1, rfl⟩
        rw [List.map_cons, List.nodup_cons, he] at hd
        exact hd.1 this
      rw [List.map_cons, List.nodup_cons] at hd
      simp [lookupA, hk, ih hd.2 h1]

/-! ### The track accumulator preserves the timeline invariants -/

theorem pushEvent_ok {off : Int} {events : List NoteEvent}
    {q : Int × String × String × Int}
    (hch : chain 0 events (off + q.1)) (hnr : noTwoRests events)
    (hL : 0 < q.2.2.2) :
    chain 0 (pushEvent off events q) (off + q.1 + q.2.2.2) ∧
      noTwoRests (pushEvent off events q) := by
  rcases List.eq_nil_or_concat events with rfl | ⟨pre, last, hplast⟩
  · have h0 : off + q.1 = 0 := hch.symm
    have hres : pushEvent off [] q =
        [{ start_step := off + q.1, length_steps := q.2.2.2,
           symbol := q.2.1, dynamic := q.2.2.1 }] := by
      simp [pushEvent]
    rw [hres]
    refine ⟨⟨h0, hL, ?_⟩, ?_⟩
    · show 0 + q.2.2.2 = off + q.1 + q.2.2.2
      omega
    · exact List.chain'_singleton _
  · rw [List.concat_eq_append] at hplast
    subst hplast
    obtain ⟨m, hpre, hlast⟩ := chain_append.mp hch
    obtain ⟨hstart, hpos, hend⟩ := hlast
    have hend2 : m + last.length_steps = off + q.1 := hend
    by_cases hc : q.2.1 = "rest" ∧ last.symbol = "rest"
    · have hcond : q.2.1 = "rest" ∧ last.symbol = "rest" ∧
          last.start_step + last.length_steps = off + q.1 :=
        ⟨hc.1, hc.2, by omega⟩
      have hres : pushEvent off (pre ++ [last]) q =
          pre ++ [{ last with length_steps := last.length_steps + q.2.2.2 }] := by
        simp only [pushEvent, List.getLast?_concat, if_pos hcond,
          List.dropLast_concat]
      rw [hres]
      constructor
      · refine chain_append.mpr ⟨m, hpre, hstart, ?_, ?_⟩
        · show 0 < last.length_steps + q.2.2.2
          omega
        · show m + (last.length_steps + q.2.2.2) = off + q.1 + q.2.2.2
          omega
      · unfold noTwoRests at hnr ⊢
        rw [List.chain'_append] at hnr ⊢
        refine ⟨hnr.1, List.chain'_singleton _, ?_⟩
        intro x hx y hy
        simp only [List.head?_cons, Option.mem_def, Option.some.injEq] at hy
        subst hy
        exact hnr.2.2 x hx last (by simp)
    · have hcond : ¬ (q.2.1 = "rest" ∧ last.symbol = "rest" ∧
          last.start_step + last.length_steps = off + q.1) := by
        intro hcc
        exact hc ⟨hcc.1, hcc.2.1⟩
      have hres : pushEvent off (pre ++ [last]) q =
          (pre ++ [last]) ++
            [{ start_step := off + q.1, length_steps := q.2.2.2,
               symbol := q.2.1, dynamic := q.2.2.1 }] := by
        simp only [pushEvent, List.getLast?_concat, if_neg hcond]
      rw [hres]
      constructor
      · exact chain_append.mpr ⟨off + q.1, hch, rfl, hL,
          show off + q.1 + q.2.2.2 = off + q.1 + q.2.2.2 from rfl⟩
      · unfold noTwoRests at hnr ⊢
        rw [List.chain'_append]
        refine ⟨hnr, List.chain'_singleton _, ?_⟩
        intro x hx y hy
        simp only [List.head?_cons, Option.mem_def, Option.some.injEq] at hy
        subst hy
        rw [List.getLast?_concat, Option.mem_def, Option.some.injEq] at hx
        subst hx
        intro hcc
        exact hc ⟨hcc.2, hcc.1⟩

theorem foldl_pushEvent_ok {off : Int} :
    ∀ (qs : List (Int × String × String × Int)) (s e : Int)
      (events : List NoteEvent), lineChain s qs e → chain 0 events (off + s) →
      noTwoRests events →
      chain 0 (qs.foldl (pushEvent off) events) (off + e) ∧
        noTwoRests (qs.foldl (pushEvent off) events) := by
  intro qs
  induction qs with
  | nil =>
    intro s e events hlc hch hnr
    have hse : s = e := hlc
    subst hse
    exact ⟨hch, hnr⟩
  | cons q qs ih =>
    intro s e events hlc hch hnr
    obtain ⟨hq, hL, hlc2⟩ := hlc
    subst hq
    have hstep := pushEvent_ok hch hnr hL
    have := ih (q.1 + q.2.2.2) e (pushEvent off events q)
      hlc2 (by rw [← add_assoc]; exact hstep.1) hstep.2
    simpa using this

/-- The per-line map update of a registered track keeps the invariant. -/
theorem stInv_track_update {st1 : PState} {tn : String}
    {evs : List (Int × String × String × Int)} {len : Int}
    (hinv : stInv st1) (hlc : lineChain 0 evs len)
    (hmem : tn ∈ st1.trackEventsMap.map Prod.fst) :
    stInv { st1 with
      trackEventsMap := updateA st1.trackEventsMap tn
        (evs.foldl (pushEvent ((lookupA st1.trackTotalSteps tn).getD 0))
          ((lookupA st1.trackEventsMap tn).getD [])),
      trackTotalSteps := updateA st1.trackTotalSteps tn
        ((lookupA st1.trackTotalSteps tn).getD 0 + len) } := by
  obtain ⟨hkeys, hnd, hlook⟩ := hinv
  have hsome : (lookupA st1.trackEventsMap tn).isSome = true :=
    (lookupA_isSome_iff _ _).mpr hmem
  rcases hle : lookupA st1.trackEventsMap tn with - | events0
  · rw [hle] at hsome; cases hsome
  obtain ⟨total0, hlt, hch, hnr⟩ := hlook tn events0 hle
  have hmemT : tn ∈ st1.trackTotalSteps.map Prod.fst := hkeys ▸ hmem
  have hfold := @foldl_pushEvent_ok total0 evs 0 len events0 hlc
    (by rw [add_zero]; exact hch) hnr
  refine ⟨?_, ?_, ?_⟩
  · simp only [map_fst_updateA _ _ _ hmem, map_fst_updateA _ _ _ hmemT, hkeys]
  · simpa only [map_fst_updateA _ _ _ hmem] using hnd
  · intro name events hlook2
    by_cases hname : name = tn
    · subst hname
      rw [lookupA_updateA_self] at hlook2
      have hev := (Option.some_inj.mp hlook2).symm
      subst hev
      refine ⟨(lookupA st1.trackTotalSteps name).getD 0 + len,
        lookupA_updateA_self _ _ _, ?_, ?_⟩
      · simp only [hlt, hle, Option.getD_some]
        exact hfold.1
      · simp only [hlt, hle, Option.getD_some]
        exact hfold.2
    · rw [lookupA_updateA_ne _ _ hname] at hlook2
      obtain ⟨total, h1, h2, h3⟩ := hlook name events hlook2
      exact ⟨total, by rw [lookupA_updateA_ne _ _ hname]; exact h1, h2, h3⟩

/-- Registering a fresh empty track keeps the invariant. -/
theorem stInv_register {st : PState} {tn : String} (hinv : stInv st)
    (hnone : lookupA st.trackEventsMap tn = none) :
    stInv { st with trackEventsMap := st.trackEventsMap ++ [(tn, [])],
                    trackTotalSteps := st.trackTotalSteps ++ [(tn, 0)] } := by
  obtain ⟨hkeys, hnd, hlook⟩ := hinv
  have hnotmem : tn ∉ st.trackEventsMap.map Prod.fst :=
    (lookupA_eq_none_iff _ _).mp hnone
  have hnoneT : lookupA st.trackTotalSteps tn = none :=
    (lookupA_eq_none_iff _ _).mpr (hkeys ▸ hnotmem)
  refine ⟨?_, ?_, ?_⟩
  · simp only [List.map_append, List.map_cons, List.map_nil, hkeys]
  · simp only [List.map_append, List.map_cons, List.map_nil]
    rw [List.nodup_append]
    exact ⟨hnd, List.nodup_singleton _, by
      intro a ha hb
      simp only [List.mem_singleton] at hb
      subst hb
      exact hnotmem ha⟩
  · intro name events hlook2
    rw [lookupA_append] at hlook2
    rcases hbase : lookupA st.trackEventsMap name with - | v
    · rw [hbase] at hlook2
      simp only [lookupA] at hlook2
      by_cases hname : tn = name
      · rw [if_pos hname] at hlook2
        obtain rfl : ([] : List NoteEvent) = events :=
          Option.some.injEq _ _ ▸ hlook2
        refine ⟨0, ?_, rfl, by simp [noTwoRests]⟩
        rw [lookupA_append]
        have : lookupA st.trackTotalSteps name = none := hname ▸ hnoneT
        rw [this]
        simp [lookupA, hname]
      · rw [if_neg hname] at hlook2; cases hlook2
    · rw [hbase] at hlook2
      obtain rfl : v = events := Option.some.injEq _ _ ▸ hlook2
      obtain ⟨total, h1, h2, h3⟩ := hlook name v hbase
      refine ⟨total, ?_, h2, h3⟩
      rw [lookupA_append, h1]

theorem processTrackLine_inv {st st2 : PState} {line : String}
    (hinv : stInv st) (h : processTrackLine st line = .ok st2) : stInv st2 := by
  rcases hts : st.time_sig with - | ts <;>
    rcases hppb : st.pulses_per_beat with - | ppb <;>
    simp only [processTrackLine, hts, hppb] at h
  · cases h
  · cases h
  · cases h
  by_cases htn0 : strip (beforeCh ':' line) = ""
  · rw [if_pos htn0] at h; cases h
  rw [if_neg htn0] at h
  by_cases hbs : ts.1 * ppb ≤ 0
  · rw [if_pos hbs] at h; cases h
  rw [if_neg hbs] at h
  by_cases hreg : (lookupA st.trackEventsMap (strip (beforeCh ':' line))).isSome = true
  · rw [if_pos hreg] at h
    rcases hble : buildLineEvents ts ppb 0
        (wsSplit (strip (afterFirst ':' line))) with e | ⟨evs, len⟩ <;>
      simp only [hble] at h
    · cases h
    · by_cases hlen : len ≠ ts.1 * ppb
      · rw [if_pos hlen] at h; cases h
      · rw [if_neg hlen] at h
        cases h
        exact stInv_track_update hinv (buildLineEvents_chain hble)
          ((lookupA_isSome_iff _ _).mp hreg)
  · rw [if_neg hreg] at h
    have hnone : lookupA st.trackEventsMap (strip (beforeCh ':' line)) = none := by
      rcases hl : lookupA st.trackEventsMap (strip (beforeCh ':' line)) with - | v
      · rfl
      · rw [hl] at hreg; cases hreg rfl
    have hinv1 := @stInv_register st (strip (beforeCh ':' line)) hinv hnone
    have hmem1 : strip (beforeCh ':' line) ∈
        (st.trackEventsMap ++ [(strip (beforeCh ':' line), ([] : List NoteEvent))]).map
          Prod.fst := by
      simp
    rcases hble : buildLineEvents ts ppb 0
        (wsSplit (strip (afterFirst ':' line))) with e | ⟨evs, len⟩ <;>
      simp only [hble] at h
    · cases h
    · by_cases hlen : len ≠ ts.1 * ppb
      · rw [if_pos hlen] at h; cases h
      · rw [if_neg hlen] at h
        cases h
        exact stInv_track_update hinv1 (buildLineEvents_chain hble) hmem1

theorem dispatchLine_inv {st st2 : PState} {line : String}
    (hinv : stInv st) (h : dispatchLine st line = .ok st2) : stInv st2 := by
  simp only [dispatchLine] at h
  repeat' split at h
  all_goals
    first
      | (cases h; exact hinv)
      | cases h
      | exact processTrackLine_inv hinv h

theorem processLine_inv {st st2 : PState} {raw : String}
    (hinv : stInv st) (h : processLine st raw = .ok st2) : stInv st2 :=
  dispatchLine_inv hinv h

theorem stInv_init : stInv initState := by
  refine ⟨rfl, List.nodup_nil, ?_⟩
  intro name events h
  cases h

theorem foldLines_inv : ∀ (ls : List String) {st st2 : PState},
    stInv st → foldLines ls st = .ok st2 → stInv st2 := by
  intro ls
  induction ls with
  | nil =>
    intro st st2 hinv h
    cases h
    exact hinv
  | cons l ls ih =>
    intro st st2 hinv h
    unfold foldLines at h
    rcases hp : processLine st l with e | stm <;> simp only [hp] at h
    · cases h
    · exact ih (processLine_inv hinv hp) h

theorem buildTracks_ok_eq {totals : List (String × Int)} {b : Int} :
    ∀ {m : List (String × List NoteEvent)} {tks : List Track},
      buildTracks totals b m = .ok tks →
      tks = m.map (fun p => Track.mk p.1 p.2) := by
  intro m
  induction m with
  | nil =>
    intro tks h
    cases h
    rfl
  | cons p rest ih =>
    intro tks h
    obtain ⟨name, events⟩ := p
    simp only [buildTracks] at h
    by_cases hmod : ((lookupA totals name).getD 0).emod b ≠ 0
    · rw [if_pos hmod] at h; cases h
    · rw [if_neg hmod] at h
      rcases hb : buildTracks totals b rest with e | tks2 <;> simp only [hb] at h
      · cases h
      · cases h
        rw [ih hb]
        rfl

theorem fromText_ok_decomp {text : String} {score : Score}
    (h : fromText text = .ok score) :
    ∃ st, foldLines (linesOf text) initState = .ok st ∧
      finalize st = .ok score := by
  unfold fromText at h
  rcases hf : foldLines (linesOf text) initState with e | st <;>
    simp only [hf] at h
  · cases h
  · exact ⟨st, rfl, h⟩

theorem finalize_ok_decomp {st : PState} {score : Score}
    (h : finalize st = .ok score) :
    ∃ ts ppb, st.time_sig = some ts ∧ st.pulses_per_beat = some ppb ∧
      st.checkBlockFound = true ∧ st.trackEventsMap.isEmpty = false ∧
      ¬ ts.1 * ppb ≤ 0 ∧
      buildTracks st.trackTotalSteps (ts.1 * ppb) st.trackEventsMap =
        .ok score.tracks ∧
      score.tempo = st.tempo.getD 120 ∧ score.time_signature = ts ∧
      score.pulses_per_beat = ppb ∧ score.title = st.title ∧
      st.checkValues.isEmpty = false ∧
      (checkErrList st.trackTotalSteps st.checkValues).isEmpty = true := by
  rcases hts : st.time_sig with - | ts <;>
    rcases hppb : st.pulses_per_beat with - | ppb <;>
    simp only [finalize, hts, hppb] at h
  · cases h
  · cases h
  · cases h
  refine ⟨ts, ppb, rfl, rfl, ?_⟩
  by_cases hcb : st.checkBlockFound = true
  swap
  · rw [if_pos (by simpa using hcb)] at h; cases h
  rw [if_neg (by simp [hcb])] at h
  by_cases hie : st.trackEventsMap.isEmpty = true
  · rw [if_pos hie] at h; cases h
  rw [if_neg hie] at h
  have hie2 : st.trackEventsMap.isEmpty = false := by simpa using hie
  by_cases hbs : ts.1 * ppb ≤ 0
  · rw [if_pos hbs] at h; cases h
  rw [if_neg hbs] at h
  rcases hbt : buildTracks st.trackTotalSteps (ts.1 * ppb) st.trackEventsMap
    with e | tks <;> simp only [hbt] at h
  · cases h
  by_cases hcv : st.checkValues.isEmpty = true
  · rw [if_pos hcv] at h; cases h
  rw [if_neg hcv] at h
  have hcv2 : st.checkValues.isEmpty = false := by simpa using hcv
  by_cases hce : (checkErrList st.trackTotalSteps st.checkValues).isEmpty = true
  · rw [if_pos hce] at h
    cases h
    exact ⟨hcb, hie2, hbs, rfl, rfl, rfl, rfl, rfl, hcv2, hce⟩
  · rw [if_neg hce] at h
    cases h

theorem chain_pairwise_lt {xs : List NoteEvent} {s e : Int} (h : chain s xs e) :
    xs.Pairwise (fun a b => a.start_step < b.start_step) := by
  induction xs generalizing s with
  | nil => exact List.Pairwise.nil
  | cons a as ih =>
    obtain ⟨h1, h2, h3⟩ := h
    refine List.Pairwise.cons ?_ (ih h3)
    intro b hb
    have := (chain_bounds h3 b hb).1
    omega

/-- Master lemma: every track of a parsed score is a contiguous chain from
step 0 to its accumulated total, with no two adjacent rests. -/
theorem fromText_track_chain {text : String} {score : Score}
    (h : fromText text = .ok score) :
    ∀ t ∈ score.tracks, ∃ st total,
      foldLines (linesOf text) initState = .ok st ∧
      lookupA st.trackTotalSteps t.name = some total ∧
      chain 0 t.events total ∧ noTwoRests t.events := by
  obtain ⟨st, hfold, hfin⟩ := fromText_ok_decomp h
  obtain ⟨ts, ppb, hts, hppb, hcb, hie, hbs, hbt, -, -, -, -, -, -⟩ :=
    finalize_ok_decomp hfin
  obtain ⟨hkeys, hnd, hlook⟩ := foldLines_inv _ stInv_init hfold
  intro t ht
  rw [buildTracks_ok_eq hbt] at ht
  obtain ⟨p, hp, ht⟩ := List.mem_map.mp ht
  have hpe : (p.1, p.2) ∈ st.trackEventsMap := by
    rw [Prod.mk.eta]
    exact hp
  have hlookup := lookupA_of_mem_nodup hnd hpe
  obtain ⟨total, hlt, hch, hnr⟩ := hlook p.1 p.2 hlookup
  subst ht
  exact ⟨st, total, hfold, hlt, hch, hnr⟩

/-- C1: in every parsed score, each track's events have positive lengths,
are ordered by start step, are pairwise non-overlapping, and the union of
their half-open step intervals is exactly `[0, total)` where `total` is the
per-track accumulated step total of the parser. -/
theorem C1_track_events_tile {text : String} {score : Score}
    (h : fromText text = .ok score) :
    ∀ t ∈ score.tracks,
      (∀ e ∈ t.events, 0 < e.length_steps) ∧
      t.events.Pairwise (fun a b => a.start_step < b.start_step) ∧
      t.events.Pairwise
        (fun a b => a.start_step + a.length_steps ≤ b.start_step) ∧
      ∃ total,
        (∃ st, foldLines (linesOf text) initState = .ok st ∧
          lookupA st.trackTotalSteps t.name = some total) ∧
        ∀ k : Int,
          (∃ e ∈ t.events,
            e.start_step ≤ k ∧ k < e.start_step + e.length_steps) ↔
          (0 ≤ k ∧ k < total) := by
  intro t ht
  obtain ⟨st, total, hfold, hlt, hch, -⟩ := fromText_track_chain h t ht
  exact ⟨chain_pos hch, chain_pairwise_lt hch, chain_pairwise hch,
    total, ⟨st, hfold, hlt⟩, chain_cover hch⟩

def docOK : String :=
  "TEMPO=100\nTIME=2/4\nPULSES_PER_BEAT=2\nHH: x - - x\nSD: 2+++\nSD: r2+++\n%%CHECK:\nHH_Total = 4\nSD_Total = 8\n%%ENDCHECK\n"

def trackHHOK : Track :=
  ⟨"HH", [⟨0, 1, "x", "mf"⟩, ⟨1, 2, "rest", "mf"⟩, ⟨3, 1, "x", "mf"⟩]⟩

def trackSDOK : Track :=
  ⟨"SD", [⟨0, 4, "x", "mf"⟩, ⟨4, 4, "rest", "mf"⟩]⟩

def scoreOK : Score :=
  { tempo := 100, time_signature := (2, 4), pulses_per_beat := 2,
    tracks := [trackHHOK, trackSDOK], title := none }

/-- Witness for C1 at a concrete document. -/
theorem C1_witness :
    (∀ e ∈ trackSDOK.events, 0 < e.length_steps) ∧
    trackSDOK.events.Pairwise (fun a b => a.start_step < b.start_step) ∧
    trackSDOK.events.Pairwise
      (fun a b => a.start_step + a.length_steps ≤ b.start_step) ∧
    ∃ total,
      (∃ st, foldLines (linesOf docOK) initState = .ok st ∧
        lookupA st.trackTotalSteps trackSDOK.name = some total) ∧
      ∀ k : Int,
        (∃ e ∈ trackSDOK.events,
          e.start_step ≤ k ∧ k < e.start_step + e.length_steps) ↔
        (0 ≤ k ∧ k < total) :=
  @C1_track_events_tile docOK scoreOK rfl trackSDOK (by decide)

/-- C5: parsed tracks never contain two consecutive events that are both
rests with the first ending where the second starts; the track builder
extends a stored trailing rest in place when an adjacent rest arrives, and
appends (never merges) whenever the new event is not a rest. -/
theorem C5_rest_coalescing :
    (∀ text score, fromText text = .ok score → ∀ t ∈ score.tracks,
      t.events.Chain' (fun a b => ¬ (a.symbol = "rest" ∧ b.symbol = "rest" ∧
        a.start_step + a.length_steps = b.start_step))) ∧
    (∀ (off : Int) (events : List NoteEvent) (last : NoteEvent)
       (q : Int × String × String × Int), events.getLast? = some last →
      q.2.1 = "rest" → last.symbol = "rest" →
      last.start_step + last.length_steps = off + q.1 →
      pushEvent off events q = events.dropLast ++
        [{ last with length_steps := last.length_steps + q.2.2.2 }]) ∧
    (∀ (off : Int) (events : List NoteEvent)
       (q : Int × String × String × Int), q.2.1 ≠ "rest" →
      pushEvent off events q = events ++
        [{ start_step := off + q.1, length_steps := q.2.2.2,
           symbol := q.2.1, dynamic := q.2.2.1 }]) := by
  refine ⟨?_, ?_, ?_⟩
  · intro text score h t ht
    obtain ⟨-, -, -, -, -, hnr⟩ := fromText_track_chain h t ht
    exact List.Chain'.imp (fun a b hab hcc => hab ⟨hcc.1, hcc.2.1⟩) hnr
  · intro off events last q hlast hq hsym hend
    simp only [pushEvent, hlast, if_pos (And.intro hq (And.intro hsym hend))]
  · intro off events q hq
    rcases hlast : events.getLast? with - | last
    · have : events = [] := List.getLast?_eq_none_iff.mp hlast
      subst this
      simp [pushEvent]
    · simp only [pushEvent, hlast,
        if_neg (fun hcc => hq (And.left hcc))]

/-- Witness for C5 at a concrete document and concrete push calls. -/
theorem C5_witness :
    trackHHOK.events.Chain'
      (fun a b => ¬ (a.symbol = "rest" ∧ b.symbol = "rest" ∧
        a.start_step + a.length_steps = b.start_step)) ∧
    pushEvent 4 [⟨0, 4, "rest", "mf"⟩] (0, "rest", "mf", 4) =
      [⟨0, 8, "rest", "mf"⟩] ∧
    pushEvent 4 [⟨0, 4, "rest", "mf"⟩] (0, "x", "mf", 4) =
      [⟨0, 4, "rest", "mf"⟩, ⟨4, 4, "x", "mf"⟩] := by
  refine ⟨C5_rest_coalescing.1 docOK scoreOK rfl trackHHOK (by decide), ?_, ?_⟩
  · rw [C5_rest_coalescing.2.1 4 [⟨0, 4, "rest", "mf"⟩] ⟨0, 4, "rest", "mf"⟩
      (0, "rest", "mf", 4) rfl rfl rfl (by decide)]
    rfl
  · rw [C5_rest_coalescing.2.2 4 [⟨0, 4, "rest", "mf"⟩] (0, "x", "mf", 4)
      (by decide)]
    rfl

/-! ### Derived timing properties (C8) -/

/-- The last-event end of every non-empty track, in track order. -/
def endsOf (s : Score) : List Int :=
  s.tracks.filterMap (fun t =>
    (t.events.getLast?).map (fun e => e.start_step + e.length_steps))

theorem maxLen_fold_aux :
    ∀ (ts : List Track) (init : Int),
      ts.foldl (fun m t =>
        match t.events.getLast? with
        | none => m
        | some e => max m (e.start_step + e.length_steps)) init =
      (ts.filterMap (fun t => (t.events.getLast?).map
        (fun e => e.start_step + e.length_steps))).foldl max init := by
  intro ts
  induction ts with
  | nil => intro init; rfl
  | cons t rest ih =>
    intro init
    rcases hl : t.events.getLast? with - | e <;>
      simp only [List.foldl_cons, List.filterMap_cons, hl, Option.map_some,
        Option.map_none] <;>
      exact ih _

theorem maxLen_eq_foldl (s : Score) : s.maxLen = (endsOf s).foldl max 0 :=
  maxLen_fold_aux s.tracks 0

theorem foldl_max_eq (l : List Int) : ∀ a : Int,
    l.foldl max a = (l.max?).elim a (fun m => max a m) := by
  induction l with
  | nil => intro a; rfl
  | cons x xs ih =>
    intro a
    have h1 : (x :: xs).foldl max a = xs.foldl max (max a x) := rfl
    have h2 : (x :: xs).max? = some (xs.foldl max x) := rfl
    rw [h1, h2, ih (max a x), ih x]
    rcases xs.max? with - | m
    · rfl
    · simp only [Option.elim_some]
      exact max_assoc a x m

/-- Ceiling of an integer fraction with positive denominator, computed the
way the source computes it. -/
theorem ceil_ratCast_ediv {a b : Int} (hb : 0 < b) :
    ⌈(a : ℚ) / (b : ℚ)⌉ = (a + b - 1).ediv b := by
  have hb0 : (0 : ℚ) < (b : ℚ) := by exact_mod_cast hb
  have hbne : b ≠ 0 := by omega
  have hkey : b * ((a + b - 1).ediv b) + (a + b - 1).emod b = a + b - 1 :=
    Int.ediv_add_emod (a + b - 1) b
  have hr0 : 0 ≤ (a + b - 1).emod b := Int.emod_nonneg _ hbne
  have hrb : (a + b - 1).emod b < b := Int.emod_lt_of_pos _ hb
  rw [Int.ceil_eq_iff]
  constructor
  · rw [lt_div_iff₀ hb0]
    have hInt : ((a + b - 1).ediv b - 1) * b < a := by nlinarith [hkey, hr0, hrb]
    exact_mod_cast hInt
  · rw [div_le_iff₀ hb0]
    have hInt : a ≤ (a + b - 1).ediv b * b := by nlinarith [hkey, hr0, hrb]
    exact_mod_cast hInt

/-- C8: `bar_steps` is numerator times pulses-per-beat, `total_steps` is
`bars * bar_steps`, `bars` is 1 when no track has an event, and otherwise
(for positive `bar_steps`) the ceiling of the maximal track end divided by
`bar_steps`, floored at 1. -/
theorem C8_derived_properties (s : Score) :
    s.bar_steps = s.time_signature.1 * s.pulses_per_beat ∧
    s.total_steps = s.bars * s.bar_steps ∧
    (endsOf s = [] → s.bars = 1) ∧
    (0 < s.bar_steps → ∀ M, (endsOf s).max? = some M →
      s.bars = max 1 ⌈(M : ℚ) / (s.bar_steps : ℚ)⌉) := by
  refine ⟨rfl, rfl, ?_, ?_⟩
  · intro hends
    have hml : s.maxLen = 0 := by
      rw [maxLen_eq_foldl, hends]
      rfl
    unfold Score.bars
    by_cases hbs : s.bar_steps ≤ 0
    · rw [if_pos hbs]
    · rw [if_neg hbs, if_pos (le_of_eq hml)]
  · intro hbs M hM
    have hml : s.maxLen = max 0 M := by
      rw [maxLen_eq_foldl, foldl_max_eq, hM]
      rfl
    unfold Score.bars
    rw [if_neg (by omega)]
    by_cases hM0 : M ≤ 0
    · rw [if_pos (by rw [hml]; omega)]
      have hce : ⌈(M : ℚ) / (s.bar_steps : ℚ)⌉ ≤ 0 := by
        apply Int.ceil_le.mpr
        push_cast
        apply div_nonpos_of_nonpos_of_nonneg
        · exact_mod_cast hM0
        · positivity
      omega
    · rw [if_neg (by rw [hml]; omega)]
      rw [hml, show max 0 M = M by omega, ceil_ratCast_ediv hbs]

def scoreEmpty : Score :=
  { tempo := 120, time_signature := (4, 4), pulses_per_beat := 4,
    tracks := [], title := none }

/-- Witness for C8 at two concrete scores. -/
theorem C8_witness :
    scoreOK.bar_steps = scoreOK.time_signature.1 * scoreOK.pulses_per_beat ∧
    scoreOK.total_steps = scoreOK.bars * scoreOK.bar_steps ∧
    scoreEmpty.bars = 1 ∧
    scoreOK.bars = max 1 ⌈((8 : Int) : ℚ) / (scoreOK.bar_steps : ℚ)⌉ :=
  ⟨(C8_derived_properties scoreOK).1,
   (C8_derived_properties scoreOK).2.1,
   (C8_derived_properties scoreEmpty).2.2.1 rfl,
   (C8_derived_properties scoreOK).2.2.2 (by decide) 8 (by decide)⟩

/-! ### Token-grammar characterizations (C3, C6, C7) -/

theorem lookupA_nvCodes_pos {s : String} {nv : Int}
    (h : lookupA nvCodes s = some nv) : 0 < nv := by
  simp only [nvCodes, lookupA] at h
  split_ifs at h <;> cases h <;> omega

theorem durationMatch_pos {base pre : String} {nv : Int}
    (h : durationMatch base = some (pre, nv)) : 0 < nv := by
  unfold durationMatch at h
  rcases h1 : lookupA nvCodes base with - | v <;> simp only [h1] at h
  · rcases hl : base.toList with - | ⟨c, rest⟩ <;> simp only [hl] at h
    · cases h
    · by_cases hc : preChars.contains c = true
      · rw [if_pos hc] at h
        rcases h2 : lookupA nvCodes (String.mk rest) with - | v2 <;>
          simp only [h2] at h
        · cases h
        · cases h
          exact lookupA_nvCodes_pos h2
      · rw [if_neg hc] at h
        cases h
  · cases h
    exact lookupA_nvCodes_pos h1

theorem note_value_to_steps_ok {ts : Int × Int} {ppb nv L : Int}
    (h : note_value_to_steps ts ppb nv = .ok L) :
    L = (ppb * ts.2).ediv nv ∧ (ppb * ts.2).emod nv = 0 ∧ 0 < nv := by
  simp only [note_value_to_steps] at h
  by_cases h1 : nv ≤ 0
  · rw [if_pos h1] at h; cases h
  rw [if_neg h1] at h
  by_cases h2 : (ppb * ts.2).emod nv ≠ 0
  · rw [if_pos h2] at h; cases h
  rw [if_neg h2] at h
  cases h
  exact ⟨rfl, by simpa using h2, by omega⟩

/-- `parse_token` on a token whose base matches the duration regex reduces
to the duration branch of the source. -/
theorem parse_token_duration (ts : Int × Int) (ppb : Int) (raw : String)
    (base dyn pre : String) (nv : Int)
    (hsd : split_dynamic (rstripPlus (strip raw)) = .ok (base, dyn))
    (hdm : durationMatch base = some (pre, nv)) :
    parse_token ts ppb raw =
      (match note_value_to_steps ts ppb nv with
       | .error e => .error e
       | .ok length_steps =>
         if ((strip raw).length - (rstripPlus (strip raw)).length) ≠ 0 ∧
             (((strip raw).length - (rstripPlus (strip raw)).length : Nat) : Int)
               ≠ length_steps - 1 then
           .error (.plusCountMismatch raw
             ((strip raw).length - (rstripPlus (strip raw)).length) nv
             length_steps)
         else .ok (symbolFor pre, dyn, length_steps)) := by
  have hb0 : base ≠ "" := by
    intro he
    rw [he, show durationMatch "" = none from rfl] at hdm
    cases hdm
  have hbar : base ≠ "|" := by
    intro he
    rw [he, show durationMatch "|" = none from rfl] at hdm
    cases hdm
  have hdot : base ≠ "." := by
    intro he
    rw [he, show durationMatch "." = none from rfl] at hdm
    cases hdm
  have htoken : strip raw ≠ "" := by
    intro he
    rw [he] at hsd
    have h2 : Except.ok (("" : String), ("mf" : String)) =
        Except.ok (base, dyn) := hsd
    cases h2
    exact hb0 rfl
  simp only [parse_token, if_neg htoken, hsd, if_neg hb0, if_neg hbar,
    if_neg (show ¬ (base = "." ∧ dyn ≠ "mf") from fun hc => hdot hc.1), hdm]

def docPPB3 : String := "TIME=4/4\nPULSES_PER_BEAT=3\nHH: 8\n"

/-- C3: duration-code tokens get `length_steps = (ppb * denominator) / d`,
a non-exact division is a hard error carrying the time signature and
pulses-per-beat, the `TIME=4/4, PULSES_PER_BEAT=3` document with duration
code 8 fails that way, and `1+++++++++++++++` parses to `(x, mf, 16)`
under `TIME=4/4, PULSES_PER_BEAT=4`. -/
theorem C3_duration_conversion :
    (∀ (ts : Int × Int) (ppb nv : Int), 0 < nv →
      ((ppb * ts.2).emod nv = 0 →
        note_value_to_steps ts ppb nv = .ok ((ppb * ts.2).ediv nv)) ∧
      ((ppb * ts.2).emod nv ≠ 0 →
        note_value_to_steps ts ppb nv =
          .error (.inexactDivision ts.1 ts.2 ppb nv))) ∧
    (∀ (ts : Int × Int) (ppb : Int) (raw base dyn pre : String) (nv : Int)
       (sym dyn2 : String) (L : Int),
      split_dynamic (rstripPlus (strip raw)) = .ok (base, dyn) →
      durationMatch base = some (pre, nv) →
      parse_token ts ppb raw = .ok (sym, dyn2, L) →
      L = (ppb * ts.2).ediv nv) ∧
    (∀ (ts : Int × Int) (ppb : Int) (raw base dyn pre : String) (nv : Int),
      split_dynamic (rstripPlus (strip raw)) = .ok (base, dyn) →
      durationMatch base = some (pre, nv) →
      0 < nv → (ppb * ts.2).emod nv ≠ 0 →
      parse_token ts ppb raw = .error (.inexactDivision ts.1 ts.2 ppb nv)) ∧
    fromText docPPB3 = .error (.inexactDivision 4 4 3 8) ∧
    parse_token (4, 4) 4 "1+++++++++++++++" = .ok ("x", "mf", 16) := by
  refine ⟨?_, ?_, ?_, rfl, rfl⟩
  · intro ts ppb nv hpos
    constructor
    · intro hmod
      unfold note_value_to_steps
      rw [if_neg (by omega), if_neg (by simpa using hmod)]
    · intro hmod
      unfold note_value_to_steps
      rw [if_neg (by omega), if_pos (by simpa using hmod)]
  · intro ts ppb raw base dyn pre nv sym dyn2 L hsd hdm hok
    rw [parse_token_duration ts ppb raw base dyn pre nv hsd hdm] at hok
    rcases hnv : note_value_to_steps ts ppb nv with e | L2 <;>
      simp only [hnv] at hok
    · cases hok
    · split_ifs at hok
      cases hok
      exact (note_value_to_steps_ok hnv).1
  · intro ts ppb raw base dyn pre nv hsd hdm hpos hmod
    rw [parse_token_duration ts ppb raw base dyn pre nv hsd hdm]
    have hnv : note_value_to_steps ts ppb nv =
        .error (.inexactDivision ts.1 ts.2 ppb nv) := by
      unfold note_value_to_steps
      rw [if_neg (by omega), if_pos (by simpa using hmod)]
    rw [hnv]

/-- Witness for C3 at concrete signatures and tokens. -/
theorem C3_witness :
    note_value_to_steps (4, 4) 4 2 = .ok 8 ∧
    note_value_to_steps (4, 4) 3 8 = .error (.inexactDivision 4 4 3 8) ∧
    ((8 : Int) = ((4 : Int) * 4).ediv 2) ∧
    parse_token (4, 4) 3 "8" = .error (.inexactDivision 4 4 3 8) := by
  refine ⟨?_, ?_, ?_, ?_⟩
  · exact (C3_duration_conversion.1 (4, 4) 4 2 (by decide)).1 (by decide)
  · exact (C3_duration_conversion.1 (4, 4) 3 8 (by decide)).2 (by decide)
  · exact C3_duration_conversion.2.1 (4, 4) 4 "o2+++++++" "o2" "mf" "o" 2
      "o" "mf" 8 rfl rfl rfl
  · exact C3_duration_conversion.2.2.1 (4, 4) 3 "8" "8" "mf" "" 8 rfl rfl
      (by decide) (by decide)

/-- C6 counterexample: the claimed processing order (dynamics suffix
stripped before the trailing plus run) is false on the code; the token
`o2+++++++^f` is rejected as unknown, not parsed to `(o, f, 8)`. -/
theorem C6_counterexample :
    parse_token (4, 4) 4 "o2+++++++^f" =
      .error (.unknownToken "o2+++++++^f") ∧
    parse_token (4, 4) 4 "o2+++++++^f" ≠ .ok ("o", "f", 8) := by
  refine ⟨rfl, ?_⟩
  intro h
  rw [show parse_token (4, 4) 4 "o2+++++++^f" =
    .error (.unknownToken "o2+++++++^f") from rfl] at h
  cases h

/-- C6 amended: the token grammar first strips the trailing plus run and
only then splits the dynamics suffix from the remaining core, so a
dynamics suffix must precede the padding; the suffix must be one of the
six dynamics or the token is rejected, a `.` core may never carry one,
`o2^f+++++++` parses to `(o, f, 8)` under `TIME=4/4, PULSES_PER_BEAT=4`,
and `o2+++++++^f` is rejected as an unknown token. -/
theorem C6_amended_dynamics_order :
    (∀ (ts : Int × Int) (ppb : Int) (raw : String),
      containsCh '^' (rstripPlus (strip raw)) = true →
      dynList.contains (strip (afterFirst '^' (rstripPlus (strip raw)))) =
        false →
      parse_token ts ppb raw = .error (.unknownDynamic
        (strip (afterFirst '^' (rstripPlus (strip raw))))
        (rstripPlus (strip raw)))) ∧
    (∀ (ts : Int × Int) (ppb : Int) (raw : String),
      containsCh '^' (rstripPlus (strip raw)) = true →
      dynList.contains (strip (afterFirst '^' (rstripPlus (strip raw)))) =
        true →
      strip (beforeCh '^' (rstripPlus (strip raw))) = "." →
      parse_token ts ppb raw = .error .dotDynamic) ∧
    parse_token (4, 4) 4 "o2^f+++++++" = .ok ("o", "f", 8) ∧
    parse_token (4, 4) 4 "o2+++++++^f" =
      .error (.unknownToken "o2+++++++^f") := by
  have hne : ∀ raw : String,
      containsCh '^' (rstripPlus (strip raw)) = true → strip raw ≠ "" := by
    intro raw hcr he
    rw [he] at hcr
    cases hcr
  refine ⟨?_, ?_, rfl, rfl⟩
  · intro ts ppb raw hcr hdyn
    have hsd : split_dynamic (rstripPlus (strip raw)) =
        .error (.unknownDynamic
          (strip (afterFirst '^' (rstripPlus (strip raw))))
          (rstripPlus (strip raw))) := by
      simp only [split_dynamic, hcr, if_pos, hdyn]
      rfl
    simp only [parse_token, if_neg (hne raw hcr), hsd]
  · intro ts ppb raw hcr hdyn hdot
    have hsd : split_dynamic (rstripPlus (strip raw)) =
        .error .dotDynamic := by
      simp only [split_dynamic, hcr, hdyn, hdot]
      rfl
    simp only [parse_token, if_neg (hne raw hcr), hsd]

/-- Witness for the amended C6 at concrete tokens. -/
theorem C6_amended_witness :
    parse_token (4, 4) 4 "x^zz++" = .error (.unknownDynamic "zz" "x^zz") ∧
    parse_token (4, 4) 4 ".^f" = .error .dotDynamic :=
  ⟨C6_amended_dynamics_order.1 (4, 4) 4 "x^zz++" rfl rfl,
   C6_amended_dynamics_order.2.1 (4, 4) 4 ".^f" rfl rfl rfl⟩

/-- C7: a duration-code token is accepted only with a plus count of 0 or
exactly `length_steps - 1`; other counts raise an error carrying the
token; `o2+++++++` parses to `(o, mf, 8)` under
`TIME=4/4, PULSES_PER_BEAT=4`. -/
theorem C7_plus_count :
    (∀ (ts : Int × Int) (ppb : Int) (raw base dyn pre : String) (nv L : Int),
      split_dynamic (rstripPlus (strip raw)) = .ok (base, dyn) →
      durationMatch base = some (pre, nv) →
      note_value_to_steps ts ppb nv = .ok L →
      (((strip raw).length - (rstripPlus (strip raw)).length ≠ 0 ∧
        (((strip raw).length - (rstripPlus (strip raw)).length : Nat) : Int)
          ≠ L - 1) →
        parse_token ts ppb raw = .error (.plusCountMismatch raw
          ((strip raw).length - (rstripPlus (strip raw)).length) nv L)) ∧
      (((strip raw).length - (rstripPlus (strip raw)).length = 0 ∨
        (((strip raw).length - (rstripPlus (strip raw)).length : Nat) : Int)
          = L - 1) →
        parse_token ts ppb raw = .ok (symbolFor pre, dyn, L))) ∧
    parse_token (4, 4) 4 "o2+++++++" = .ok ("o", "mf", 8) := by
  refine ⟨?_, rfl⟩
  intro ts ppb raw base dyn pre nv L hsd hdm hnv
  rw [parse_token_duration ts ppb raw base dyn pre nv hsd hdm]
  simp only [hnv]
  constructor
  · intro hplus
    rw [if_pos hplus]
  · intro hplus
    rw [if_neg (by tauto)]

/-- Witness for C7 at concrete tokens. -/
theorem C7_witness :
    parse_token (4, 4) 4 "o2+++" =
      .error (.plusCountMismatch "o2+++" 3 2 8) ∧
    parse_token (4, 4) 4 "o2+++++++" = .ok ("o", "mf", 8) := by
  constructor
  · exact (C7_plus_count.1 (4, 4) 4 "o2+++" "o2" "mf" "o" 2 8 rfl rfl rfl).1
      (by constructor <;> decide)
  · exact (C7_plus_count.1 (4, 4) 4 "o2+++++++" "o2" "mf" "o" 2 8
      rfl rfl rfl).2 (by right; decide)

/-! ### Line assembly (C4) -/

theorem lineChain_offsets {qs : List (Int × String × String × Int)}
    {s e : Int} (h : lineChain s qs e) :
    (∀ i (hi : i < qs.length), (qs.get ⟨i, hi⟩).1 =
      s + ((qs.take i).map (fun q => q.2.2.2)).sum) ∧
    e = s + (qs.map (fun q => q.2.2.2)).sum := by
  induction qs generalizing s with
  | nil =>
    refine ⟨fun i hi => absurd hi (by simp), ?_⟩
    have hse : s = e := h
    simp [← hse]
  | cons q qs ih =>
    obtain ⟨h1, h2, h3⟩ := h
    obtain ⟨ihg, ihe⟩ := ih h3
    constructor
    · intro i hi
      cases i with
      | zero => simpa using h1
      | succ n =>
        have hn := ihg n (by simpa using hi)
        simp only [List.get_cons_succ, List.take_succ_cons, List.map_cons,
          List.sum_cons] at hn ⊢
        rw [hn]
        omega
    · simp only [List.map_cons, List.sum_cons]
      omega

def doc15 : String :=
  "TIME=4/4\nPULSES_PER_BEAT=4\nHH: x x x x x x x x x x x x x x x\n"

/-- C4: a track pattern line whose token lengths do not sum to `bar_steps`
raises an error carrying the track name, the computed line length and the
required bar length (the 15-token line under `bar_steps = 16` fails with
15 vs 16), and each token's relative start offset is the running sum of
the lengths of the preceding tokens of the line. -/
theorem C4_line_length :
    (∀ (st : PState) (line : String) (ts : Int × Int) (ppb : Int)
       (evs : List (Int × String × String × Int)) (len : Int),
      st.time_sig = some ts → st.pulses_per_beat = some ppb →
      strip (beforeCh ':' line) ≠ "" →
      ¬ ts.1 * ppb ≤ 0 →
      buildLineEvents ts ppb 0 (wsSplit (strip (afterFirst ':' line))) =
        .ok (evs, len) →
      len ≠ ts.1 * ppb →
      processTrackLine st line = .error
        (.lineLengthMismatch (strip (beforeCh ':' line)) len (ts.1 * ppb))) ∧
    (∀ (ts : Int × Int) (ppb : Int) (toks : List String)
       (evs : List (Int × String × String × Int)) (len : Int),
      buildLineEvents ts ppb 0 toks = .ok (evs, len) →
      (∀ i (hi : i < evs.length), (evs.get ⟨i, hi⟩).1 =
        ((evs.take i).map (fun q => q.2.2.2)).sum) ∧
      len = (evs.map (fun q => q.2.2.2)).sum) ∧
    fromText doc15 = .error (.lineLengthMismatch "HH" 15 16) := by
  refine ⟨?_, ?_, rfl⟩
  · intro st line ts ppb evs len hts hppb hname hbs hble hlen
    simp only [processTrackLine, hts, hppb, if_neg hname, if_neg hbs, hble,
      if_pos hlen]
  · intro ts ppb toks evs len hble
    obtain ⟨hg, he⟩ := lineChain_offsets (buildLineEvents_chain hble)
    refine ⟨fun i hi => ?_, by simpa using he⟩
    simpa using hg i hi

def stC4 : PState :=
  { initState with time_sig := some (4, 4), pulses_per_beat := some 4 }

/-- Witness for C4 at a concrete state, line and token list. -/
theorem C4_witness :
    processTrackLine stC4 "HH: x x x x x x x x x x x x x x x" =
      .error (.lineLengthMismatch "HH" 15 16) ∧
    (∀ i (hi : i < ([(0, "x", "mf", 1), (1, "rest", "mf", 1),
        (2, "rest", "mf", 1), (3, "x", "mf", 1)] : List (Int × String × String × Int)).length),
      (([(0, "x", "mf", 1), (1, "rest", "mf", 1), (2, "rest", "mf", 1), (3, "x", "mf", 1)] :
          List (Int × String × String × Int)).get ⟨i, hi⟩).1 =
        ((([(0, "x", "mf", 1), (1, "rest", "mf", 1), (2, "rest", "mf", 1), (3, "x", "mf", 1)] :
          List (Int × String × String × Int)).take i).map
            (fun q => q.2.2.2)).sum) ∧
    (4 : Int) = (([(0, "x", "mf", 1), (1, "rest", "mf", 1), (2, "rest", "mf", 1), (3, "x", "mf", 1)] :
      List (Int × String × String × Int)).map (fun q => q.2.2.2)).sum := by
  refine ⟨?_, ?_, ?_⟩
  · exact C4_line_length.1 stC4 "HH: x x x x x x x x x x x x x x x" (4, 4) 4
      [(0, "x", "mf", 1), (1, "x", "mf", 1), (2, "x", "mf", 1),
       (3, "x", "mf", 1), (4, "x", "mf", 1), (5, "x", "mf", 1),
       (6, "x", "mf", 1), (7, "x", "mf", 1), (8, "x", "mf", 1),
       (9, "x", "mf", 1), (10, "x", "mf", 1), (11, "x", "mf", 1),
       (12, "x", "mf", 1), (13, "x", "mf", 1), (14, "x", "mf", 1)]
      15 rfl rfl (by decide) (by decide) rfl (by decide)
  · exact (C4_line_length.2.1 (2, 4) 2 ["x", "-", "-", "x"] _ 4 rfl).1
  · exact (C4_line_length.2.1 (2, 4) 2 ["x", "-", "-", "x"] _ 4 rfl).2

/-! ### Required headers and the tempo default (C9) -/

theorem processTrackLine_tempo {st st2 : PState} {line : String}
    (h : processTrackLine st line = .ok st2) : st2.tempo = st.tempo := by
  simp only [processTrackLine] at h
  repeat' split at h
  all_goals first | (cases h; rfl) | cases h

theorem dispatchLine_tempo {st st2 : PState} {line : String}
    (h : dispatchLine st line = .ok st2)
    (ht : startsW "TEMPO=" line = false) : st2.tempo = st.tempo := by
  simp only [dispatchLine] at h
  repeat' split at h
  all_goals first
    | (cases h; rfl)
    | (cases h; done)
    | exact processTrackLine_tempo h
    | simp_all

theorem processTrackLine_time {st st2 : PState} {line : String}
    (h : processTrackLine st line = .ok st2) :
    st2.time_sig = st.time_sig ∧ st2.pulses_per_beat = st.pulses_per_beat := by
  simp only [processTrackLine] at h
  repeat' split at h
  all_goals first | (cases h; exact ⟨rfl, rfl⟩) | cases h

theorem dispatchLine_time {st st2 : PState} {line : String}
    (h : dispatchLine st line = .ok st2)
    (ht : startsW "TIME=" line = false)
    (hp : startsW "PULSES_PER_BEAT=" line = false) :
    st2.time_sig = st.time_sig ∧ st2.pulses_per_beat = st.pulses_per_beat := by
  simp only [dispatchLine] at h
  repeat' split at h
  all_goals first
    | (cases h; exact ⟨rfl, rfl⟩)
    | (cases h; done)
    | exact processTrackLine_time h
    | simp_all

theorem foldLines_time_none : ∀ (ls : List String) {st st2 : PState},
    (∀ raw ∈ ls, startsW "TIME=" (strip (beforeCh '#' raw)) = false ∧
      startsW "PULSES_PER_BEAT=" (strip (beforeCh '#' raw)) = false) →
    foldLines ls st = .ok st2 →
    (st.time_sig = none ∨ st.pulses_per_beat = none) →
    st2.time_sig = none ∨ st2.pulses_per_beat = none := by
  intro ls
  induction ls with
  | nil =>
    intro st st2 _ h hn
    cases h
    exact hn
  | cons l ls ih =>
    intro st st2 hall h hn
    unfold foldLines at h
    rcases hp : processLine st l with e | stm <;> simp only [hp] at h
    · cases h
    · obtain ⟨hT, hP⟩ := dispatchLine_time hp
        (hall l (List.mem_cons_self l ls)).1 (hall l (List.mem_cons_self l ls)).2
      refine ih (fun raw hr => hall raw (List.mem_cons_of_mem _ hr)) h ?_
      rcases hn with hn | hn
      · exact Or.inl (hT.trans hn)
      · exact Or.inr (hP.trans hn)

theorem foldLines_tempo_none : ∀ (ls : List String) {st st2 : PState},
    (∀ raw ∈ ls, startsW "TEMPO=" (strip (beforeCh '#' raw)) = false) →
    foldLines ls st = .ok st2 → st.tempo = none → st2.tempo = none := by
  intro ls
  induction ls with
  | nil =>
    intro st st2 _ h hn
    cases h
    exact hn
  | cons l ls ih =>
    intro st st2 hall h hn
    unfold foldLines at h
    rcases hp : processLine st l with e | stm <;> simp only [hp] at h
    · cases h
    · have hst : stm.tempo = st.tempo :=
        dispatchLine_tempo hp (hall l (List.mem_cons_self l ls))
      exact ih (fun raw hr => hall raw (List.mem_cons_of_mem _ hr)) h
        (hst.trans hn)

def docNoTempo : String :=
  "TIME=2/4\nPULSES_PER_BEAT=2\nHH: x - - x\n%%CHECK:\nHH_Total = 4\n%%ENDCHECK\n"

def scoreNoTempo : Score :=
  { tempo := 120, time_signature := (2, 4), pulses_per_beat := 2,
    tracks := [trackHHOK], title := none }

/-- C9: a track line reached while `TIME=` or `PULSES_PER_BEAT=` is still
undeclared is a hard error; at end of input an undeclared `TIME=` or
`PULSES_PER_BEAT=` is a hard error, so a document that never declares them
never yields a score; a document with no `TEMPO=` line yields a score with
tempo 120. -/
theorem C9_required_headers :
    (∀ (st : PState) (line : String),
      st.inCheckBlock = false →
      line ≠ "" →
      startsW "%%CHECK:" line = false →
      startsW "%%ENDCHECK" line = false →
      startsW "FILENAME=" line = false →
      startsW "TITLE=" line = false →
      startsW "TEMPO=" line = false →
      startsW "TIME=" line = false →
      startsW "PULSES_PER_BEAT=" line = false →
      containsCh ':' line = true →
      (st.time_sig = none ∨ st.pulses_per_beat = none) →
      dispatchLine st line = .error .timeBeforeTracks) ∧
    (∀ st : PState, st.time_sig = none ∨ st.pulses_per_beat = none →
      finalize st = .error .missingTimeOrPPB) ∧
    (∀ text : String,
      (∀ raw ∈ linesOf text,
        startsW "TIME=" (strip (beforeCh '#' raw)) = false ∧
        startsW "PULSES_PER_BEAT=" (strip (beforeCh '#' raw)) = false) →
      ∀ score : Score, fromText text ≠ .ok score) ∧
    (∀ (text : String) (score : Score),
      (∀ raw ∈ linesOf text,
        startsW "TEMPO=" (strip (beforeCh '#' raw)) = false) →
      fromText text = .ok score → score.tempo = 120) := by
  refine ⟨?_, ?_, ?_, ?_⟩
  · intro st line hicb hline h1 h2 h3 h4 h5 h6 h7 hcol hnone
    simp only [dispatchLine, if_neg hline, h1, h2, h3, h4, h5, h6, h7, hicb,
      hcol, Bool.false_eq_true, if_false, if_true]
    rcases hnone with hts | hppb
    · simp only [processTrackLine, hts]
    · rcases hts2 : st.time_sig with - | ts2 <;>
        simp only [processTrackLine, hts2, hppb]
  · intro st hnone
    rcases hnone with hts | hppb
    · simp only [finalize, hts]
    · rcases hts2 : st.time_sig with - | ts2 <;>
        simp only [finalize, hts2, hppb]
  · intro text hall score hok
    obtain ⟨st, hfold, hfin⟩ := fromText_ok_decomp hok
    obtain ⟨ts, ppb, hts, -, -, -, -, -, -, -, -, -, -, -⟩ :=
      finalize_ok_decomp hfin
    rcases foldLines_time_none _ hall hfold (Or.inl rfl) with hn | hn
    · rw [hts] at hn
      cases hn
    · obtain ⟨ts2, ppb2, -, hppb2, -, -, -, -, -, -, -, -, -, -⟩ :=
        finalize_ok_decomp hfin
      rw [hppb2] at hn
      cases hn
  · intro text score hall hok
    obtain ⟨st, hfold, hfin⟩ := fromText_ok_decomp hok
    obtain ⟨ts, ppb, -, -, -, -, -, -, htempo, -, -, -, -, -⟩ :=
      finalize_ok_decomp hfin
    have hn : st.tempo = none := foldLines_tempo_none _ hall hfold rfl
    rw [htempo, hn]
    rfl

def stNoTime : PState := { initState with pulses_per_beat := some 4 }

/-- Witness for C9 at a concrete state, document and score. -/
theorem C9_witness :
    dispatchLine stNoTime "HH: x" = .error .timeBeforeTracks ∧
    finalize initState = .error .missingTimeOrPPB ∧
    fromText "TEMPO=100\n" ≠ .ok scoreOK ∧
    scoreNoTempo.tempo = 120 := by
  refine ⟨?_, ?_, ?_, ?_⟩
  · exact C9_required_headers.1 stNoTime "HH: x" rfl (by decide) rfl rfl rfl
      rfl rfl rfl rfl rfl (Or.inl rfl)
  · exact C9_required_headers.2.1 initState (Or.inl rfl)
  · exact C9_required_headers.2.2.1 "TEMPO=100\n" (by decide) scoreOK
  · exact C9_required_headers.2.2.2 docNoTempo scoreNoTempo (by decide) rfl

/-! ### Header redeclaration, last value wins (C10) -/

def docC10 : String :=
  "TITLE=A\nTEMPO=100\nTIME=4/4\nPULSES_PER_BEAT=4\nHH: x x x x x x x x x x x x x x x x\nTIME=2/4\nTITLE=B\nTEMPO=90\nHH: x x x x x x x x\n%%CHECK:\nHH_Total = 24\n%%ENDCHECK\n"

def scoreC10 : Score :=
  { tempo := 90, time_signature := (2, 4), pulses_per_beat := 4,
    tracks := [⟨"HH", (List.range 24).map
      (fun i => ⟨(i : Int), 1, "x", "mf"⟩)⟩],
    title := some "B" }

/-- C10: every header directive line simply overwrites the corresponding
state field, whatever was stored before and however many track lines were
already parsed, so later track lines are parsed against the most recent
`TIME`/`PULSES_PER_BEAT` and the returned score stores the last declared
value of each directive; the concrete document redeclares all four
directives after a first track line and its 8-token second line is
bar-checked against the redeclared `TIME=2/4` (bar length 8). -/
theorem C10_last_declaration_wins :
    (∀ (st : PState) (line : String) (v : Int × Int),
      st.inCheckBlock = false →
      startsW "%%CHECK:" line = false →
      startsW "%%ENDCHECK" line = false →
      startsW "FILENAME=" line = false →
      startsW "TITLE=" line = false →
      startsW "TEMPO=" line = false →
      startsW "TIME=" line = true →
      parseTimeVal (afterFirst '=' line) = .ok v →
      dispatchLine st line = .ok { st with time_sig := some v }) ∧
    (∀ (st : PState) (line : String) (n : Int),
      st.inCheckBlock = false →
      startsW "%%CHECK:" line = false →
      startsW "%%ENDCHECK" line = false →
      startsW "FILENAME=" line = false →
      startsW "TITLE=" line = false →
      startsW "TEMPO=" line = false →
      startsW "TIME=" line = false →
      startsW "PULSES_PER_BEAT=" line = true →
      pyInt (afterFirst '=' line) = some n →
      dispatchLine st line = .ok { st with pulses_per_beat := some n }) ∧
    (∀ (st : PState) (line : String) (n : Int),
      st.inCheckBlock = false →
      startsW "%%CHECK:" line = false →
      startsW "%%ENDCHECK" line = false →
      startsW "FILENAME=" line = false →
      startsW "TITLE=" line = false →
      startsW "TEMPO=" line = true →
      pyInt (afterFirst '=' line) = some n →
      dispatchLine st line = .ok { st with tempo := some n }) ∧
    (∀ (st : PState) (line : String),
      st.inCheckBlock = false →
      startsW "%%CHECK:" line = false →
      startsW "%%ENDCHECK" line = false →
      startsW "FILENAME=" line = false →
      startsW "TITLE=" line = true →
      dispatchLine st line =
        .ok { st with title := some (strip (afterFirst '=' line)) }) ∧
    fromText docC10 = .ok scoreC10 := by
  have hnonempty : ∀ (p line : String),
      startsW p line = true → p ≠ "" → line ≠ "" := by
    intro p line hs hp he
    subst he
    rcases hp2 : p.toList with - | ⟨c, cs⟩
    · exact hp (by
        have : p = String.mk [] := by
          cases p
          cases hp2
          rfl
        simpa using this)
    · rw [startsW, hp2] at hs
      cases hs
  refine ⟨?_, ?_, ?_, ?_, rfl⟩
  · intro st line v hicb h1 h2 h3 h4 h5 h6 hparse
    simp only [dispatchLine,
      if_neg (hnonempty _ _ h6 (by decide)), h1, h2, h3, h4, h5, h6, hicb,
      Bool.false_eq_true, if_false, if_true, hparse]
  · intro st line n hicb h1 h2 h3 h4 h5 h6 h7 hparse
    simp only [dispatchLine,
      if_neg (hnonempty _ _ h7 (by decide)), h1, h2, h3, h4, h5, h6, h7, hicb,
      Bool.false_eq_true, if_false, if_true, hparse]
  · intro st line n hicb h1 h2 h3 h4 h5 hparse
    simp only [dispatchLine,
      if_neg (hnonempty _ _ h5 (by decide)), h1, h2, h3, h4, h5, hicb,
      Bool.false_eq_true, if_false, if_true, hparse]
  · intro st line hicb h1 h2 h3 h4
    simp only [dispatchLine,
      if_neg (hnonempty _ _ h4 (by decide)), h1, h2, h3, h4, hicb,
      Bool.false_eq_true, if_false, if_true]

def stC10 : PState :=
  { initState with
    tempo := some 100
    time_sig := some (4, 4)
    pulses_per_beat := some 4
    title := some "A" }

/-- Witness for C10: each directive overwrites a previously stored value. -/
theorem C10_witness :
    dispatchLine stC10 "TIME=2/4" =
      .ok { stC10 with time_sig := some (2, 4) } ∧
    dispatchLine stC10 "PULSES_PER_BEAT=8" =
      .ok { stC10 with pulses_per_beat := some 8 } ∧
    dispatchLine stC10 "TEMPO=90" = .ok { stC10 with tempo := some 90 } ∧
    dispatchLine stC10 "TITLE=B" = .ok { stC10 with title := some "B" } :=
  ⟨C10_last_declaration_wins.1 stC10 "TIME=2/4" (2, 4)
      rfl rfl rfl rfl rfl rfl rfl rfl,
   C10_last_declaration_wins.2.1 stC10 "PULSES_PER_BEAT=8" 8
      rfl rfl rfl rfl rfl rfl rfl rfl rfl,
   C10_last_declaration_wins.2.2.1 stC10 "TEMPO=90" 90
      rfl rfl rfl rfl rfl rfl rfl,
   C10_last_declaration_wins.2.2.2.1 stC10 "TITLE=B"
      rfl rfl rfl rfl rfl⟩

/-! ### Checksum cross-validation (C2) -/

/-- The failure condition of the claim: some track key missing from the
CHECK block, some CHECK value differing from the computed total, or some
CHECK key matching no track. -/
def checkBad (st : PState) : Prop :=
  (∃ p ∈ st.trackTotalSteps,
    lookupA st.checkValues (p.1 ++ "_Total") = none) ∨
  (∃ p ∈ st.trackTotalSteps, ∃ expected,
    lookupA st.checkValues (p.1 ++ "_Total") = some expected ∧
    expected ≠ p.2) ∨
  (∃ q ∈ st.checkValues,
    q.1 ∉ st.trackTotalSteps.map (fun p => p.1 ++ "_Total"))

theorem perTrackCheck_eq_nil_iff {cv : List (String × Int)}
    {p : String × Int} :
    perTrackCheck cv p = [] ↔ lookupA cv (p.1 ++ "_Total") = some p.2 := by
  unfold perTrackCheck
  rcases h : lookupA cv (p.1 ++ "_Total") with - | exp <;> simp only [h]
  · simp
  · by_cases he : exp = p.2
    · subst he
      simp
    · simp [he]

theorem checkErrList_eq_nil_iff {totals cv : List (String × Int)} :
    checkErrList totals cv = [] ↔
      ((∀ p ∈ totals, lookupA cv (p.1 ++ "_Total") = some p.2) ∧
       (∀ q ∈ cv, q.1 ∈ totals.map (fun p => p.1 ++ "_Total"))) := by
  unfold checkErrList
  rw [List.append_eq_nil, List.flatten_eq_nil_iff, List.map_eq_nil_iff,
    List.filter_eq_nil_iff]
  constructor
  · rintro ⟨h1, h2⟩
    constructor
    · intro p hp
      exact perTrackCheck_eq_nil_iff.mp
        (h1 (perTrackCheck cv p) (List.mem_map_of_mem _ hp))
    · intro q hq
      have := h2 q hq
      simpa using this
  · rintro ⟨h1, h2⟩
    constructor
    · intro l hl
      obtain ⟨p, hp, rfl⟩ := List.mem_map.mp hl
      exact perTrackCheck_eq_nil_iff.mpr (h1 p hp)
    · intro q hq
      simpa using h2 q hq

theorem checkErrList_mem_missing {totals cv : List (String × Int)}
    {p : String × Int} (hp : p ∈ totals)
    (h : lookupA cv (p.1 ++ "_Total") = none) :
    CheckErr.missing (p.1 ++ "_Total") ∈ checkErrList totals cv := by
  unfold checkErrList
  apply List.mem_append_left
  apply List.mem_flatten.mpr
  refine ⟨perTrackCheck cv p, List.mem_map_of_mem _ hp, ?_⟩
  simp only [perTrackCheck, h]
  exact List.mem_singleton_self _

theorem checkErrList_mem_mismatch {totals cv : List (String × Int)}
    {p : String × Int} {expected : Int} (hp : p ∈ totals)
    (h : lookupA cv (p.1 ++ "_Total") = some expected)
    (hne : expected ≠ p.2) :
    CheckErr.mismatch (p.1 ++ "_Total") expected p.2 ∈
      checkErrList totals cv := by
  unfold checkErrList
  apply List.mem_append_left
  apply List.mem_flatten.mpr
  refine ⟨perTrackCheck cv p, List.mem_map_of_mem _ hp, ?_⟩
  simp only [perTrackCheck, h, if_pos hne]
  exact List.mem_singleton_self _

theorem checkErrList_mem_extra {totals cv : List (String × Int)}
    {q : String × Int} (hq : q ∈ cv)
    (h : q.1 ∉ totals.map (fun p => p.1 ++ "_Total")) :
    CheckErr.extra q.1 ∈ checkErrList totals cv := by
  unfold checkErrList
  apply List.mem_append_right
  apply List.mem_map_of_mem
  apply List.mem_filter.mpr
  exact ⟨hq, by simpa using h⟩

theorem fromText_eq_finalize {text : String} {st : PState}
    (h : foldLines (linesOf text) initState = .ok st) :
    fromText text = finalize st := by
  unfold fromText
  rw [h]

theorem isEmpty_false_of_ne {α : Type} {l : List α} (h : l ≠ []) :
    l.isEmpty = false := by
  cases l
  · exact absurd rfl h
  · rfl

/-- Evaluation of `finalize` once every stage before the CHECK
cross-validation is known to pass. -/
theorem finalize_eval {st : PState} {ts : Int × Int} {ppb : Int}
    {tracks : List Track}
    (hts : st.time_sig = some ts) (hppb : st.pulses_per_beat = some ppb)
    (hcb : st.checkBlockFound = true)
    (hie : st.trackEventsMap.isEmpty = false)
    (hbs : ¬ ts.1 * ppb ≤ 0)
    (hbt : buildTracks st.trackTotalSteps (ts.1 * ppb) st.trackEventsMap =
      .ok tracks) :
    finalize st =
      (if st.checkValues.isEmpty then .error .checkEmpty
       else if (checkErrList st.trackTotalSteps st.checkValues).isEmpty then
         .ok { tempo := st.tempo.getD 120, time_signature := ts,
               pulses_per_beat := ppb, tracks := tracks, title := st.title }
       else .error (.checkErrors
         (checkErrList st.trackTotalSteps st.checkValues))) := by
  simp only [finalize, hts, hppb, hcb, hie, if_neg hbs, hbt, not_true,
    Bool.false_eq_true, if_false]

def docHH48 : String :=
  "TIME=4/4\nPULSES_PER_BEAT=4\nHH: 1+++++++++++++++\nHH: 1+++++++++++++++\nHH: 1+++++++++++++++\nHH: 1+++++++++++++++\n%%CHECK:\nHH_Total = 48\n%%ENDCHECK\n"

def docEmptyCheck : String :=
  "TIME=4/4\nPULSES_PER_BEAT=4\nHH: 1+++++++++++++++\n%%CHECK:\n%%ENDCHECK\n"

/-- C2 counterexample: a document whose CHECK block contains no entries
fails with the generic no-check-values error, which carries no per-key
enumeration even though the track key `HH_Total` is missing. -/
theorem C2_counterexample :
    fromText docEmptyCheck = .error .checkEmpty ∧
    ¬ ∃ errs, fromText docEmptyCheck = .error (.checkErrors errs) := by
  refine ⟨rfl, ?_⟩
  rintro ⟨errs, h⟩
  rw [show fromText docEmptyCheck = .error .checkEmpty from rfl] at h
  cases h

/-- C2 amended: once the line loop and the pre-checksum validation stages
succeed, `from_text` returns a score exactly when no CHECK key is missing,
mismatched or disallowed; when the condition fails and the CHECK block has
at least one entry, the single raised error aggregates one entry for every
missing, mismatched and disallowed key; when the CHECK block has no
entries at all, the generic no-check-values error is raised instead; the
`HH` document declaring 48 against a computed 64 fails naming `HH_Total`,
48 and 64. -/
theorem C2_checksum_validation :
    (∀ (text : String) (st : PState) (ts : Int × Int) (ppb : Int)
       (tracks : List Track),
      foldLines (linesOf text) initState = .ok st →
      st.time_sig = some ts → st.pulses_per_beat = some ppb →
      st.checkBlockFound = true →
      st.trackEventsMap.isEmpty = false →
      ¬ ts.1 * ppb ≤ 0 →
      buildTracks st.trackTotalSteps (ts.1 * ppb) st.trackEventsMap =
        .ok tracks →
      (((∃ score, fromText text = .ok score) ↔ ¬ checkBad st) ∧
       (checkBad st → st.checkValues ≠ [] →
         fromText text = .error (.checkErrors
           (checkErrList st.trackTotalSteps st.checkValues)) ∧
         (∀ p ∈ st.trackTotalSteps,
           lookupA st.checkValues (p.1 ++ "_Total") = none →
           CheckErr.missing (p.1 ++ "_Total") ∈
             checkErrList st.trackTotalSteps st.checkValues) ∧
         (∀ p ∈ st.trackTotalSteps, ∀ expected,
           lookupA st.checkValues (p.1 ++ "_Total") = some expected →
           expected ≠ p.2 →
           CheckErr.mismatch (p.1 ++ "_Total") expected p.2 ∈
             checkErrList st.trackTotalSteps st.checkValues) ∧
         (∀ q ∈ st.checkValues,
           q.1 ∉ st.trackTotalSteps.map (fun p => p.1 ++ "_Total") →
           CheckErr.extra q.1 ∈
             checkErrList st.trackTotalSteps st.checkValues)) ∧
       (st.checkValues = [] → fromText text = .error .checkEmpty))) ∧
    fromText docHH48 =
      .error (.checkErrors [.mismatch "HH_Total" 48 64]) := by
  refine ⟨?_, rfl⟩
  intro text st ts ppb tracks hfold hts hppb hcb hie hbs hbt
  have hfe := fromText_eq_finalize hfold
  obtain ⟨hkeys, -, -⟩ := foldLines_inv _ stInv_init hfold
  have htne : st.trackTotalSteps ≠ [] := by
    intro he
    rw [he] at hkeys
    have : st.trackEventsMap = [] := by
      rcases hm : st.trackEventsMap with - | ⟨p, rest⟩
      · rfl
      · rw [hm] at hkeys
        cases hkeys
    rw [this] at hie
    cases hie
  refine ⟨?_, ?_, ?_⟩
  · constructor
    · rintro ⟨score, hok⟩ hbad
      rw [hfe] at hok
      obtain ⟨ts2, ppb2, hts2, hppb2, -, -, -, -, -, -, -, -, -, hce⟩ :=
        finalize_ok_decomp hok
      have herrs : checkErrList st.trackTotalSteps st.checkValues = [] := by
        simpa using hce
      rcases hbad with ⟨p, hp, hmiss⟩ | ⟨p, hp, exp, hexp, hne⟩ | ⟨q, hq, hnk⟩
      · have := checkErrList_mem_missing hp hmiss
        rw [herrs] at this
        cases this
      · have := checkErrList_mem_mismatch hp hexp hne
        rw [herrs] at this
        cases this
      · have := checkErrList_mem_extra hq hnk
        rw [herrs] at this
        cases this
    · intro hgood
      have hcv : st.checkValues ≠ [] := by
        intro he
        rcases hex : st.trackTotalSteps with - | ⟨p, rest⟩
        · exact htne hex
        · exact hgood (Or.inl ⟨p, by rw [hex]; exact List.mem_cons_self p rest,
            by rw [he]; rfl⟩)
      have herrs : checkErrList st.trackTotalSteps st.checkValues = [] := by
        rw [checkErrList_eq_nil_iff]
        constructor
        · intro p hp
          rcases hl : lookupA st.checkValues (p.1 ++ "_Total") with - | exp
          · exact absurd (Or.inl ⟨p, hp, hl⟩) hgood
          · by_cases he : exp = p.2
            · rw [he]
            · exact absurd (Or.inr (Or.inl ⟨p, hp, exp, hl, he⟩)) hgood
        · intro q hq
          by_contra hnk
          exact hgood (Or.inr (Or.inr ⟨q, hq, hnk⟩))
      refine ⟨{ tempo := st.tempo.getD 120, time_signature := ts,
                pulses_per_beat := ppb, tracks := tracks,
                title := st.title }, ?_⟩
      rw [hfe, finalize_eval hts hppb hcb hie hbs hbt,
        if_neg (by rw [isEmpty_false_of_ne hcv]; exact Bool.false_ne_true),
        if_pos (by rw [herrs]; rfl)]
  · intro hbad hcv
    have hmem : ∃ e, e ∈ checkErrList st.trackTotalSteps st.checkValues := by
      rcases hbad with ⟨p, hp, hmiss⟩ | ⟨p, hp, exp, hexp, hne⟩ | ⟨q, hq, hnk⟩
      · exact ⟨_, checkErrList_mem_missing hp hmiss⟩
      · exact ⟨_, checkErrList_mem_mismatch hp hexp hne⟩
      · exact ⟨_, checkErrList_mem_extra hq hnk⟩
    have herrne : checkErrList st.trackTotalSteps st.checkValues ≠ [] := by
      obtain ⟨e, he⟩ := hmem
      intro hnil
      rw [hnil] at he
      cases he
    refine ⟨?_, fun p hp hm => checkErrList_mem_missing hp hm,
      fun p hp exp hexp hne => checkErrList_mem_mismatch hp hexp hne,
      fun q hq hnk => checkErrList_mem_extra hq hnk⟩
    rw [hfe, finalize_eval hts hppb hcb hie hbs hbt,
      if_neg (by rw [isEmpty_false_of_ne hcv]; exact Bool.false_ne_true),
      if_neg (by rw [isEmpty_false_of_ne herrne]; exact Bool.false_ne_true)]
  · intro hcv
    rw [hfe, finalize_eval hts hppb hcb hie hbs hbt,
      if_pos (by rw [hcv]; rfl)]

/-- The parser state after the line loop of a document (initial state if
the loop fails). -/
def stAfter (text : String) : PState :=
  match foldLines (linesOf text) initState with
  | .ok st => st
  | .error _ => initState

/-- Witness for the amended C2 at the concrete mismatching document. -/
theorem C2_amended_witness :
    fromText docHH48 = .error (.checkErrors
      (checkErrList (stAfter docHH48).trackTotalSteps
        (stAfter docHH48).checkValues)) ∧
    CheckErr.mismatch "HH_Total" 48 64 ∈
      checkErrList (stAfter docHH48).trackTotalSteps
        (stAfter docHH48).checkValues := by
  have h := C2_checksum_validation.1 docHH48 (stAfter docHH48) (4, 4) 4
    [⟨"HH", [⟨0, 16, "x", "mf"⟩, ⟨16, 16, "x", "mf"⟩, ⟨32, 16, "x", "mf"⟩,
      ⟨48, 16, "x", "mf"⟩]⟩] rfl rfl rfl rfl rfl (by decide) rfl
  have hbad : checkBad (stAfter docHH48) :=
    Or.inr (Or.inl ⟨("HH", 64), by decide, 48, rfl, by decide⟩)
  have h2 := h.2.1 hbad (by decide)
  exact ⟨h2.1, h2.2.2.1 ("HH", 64) (by decide) 48 rfl (by decide)⟩

end DrumScore
